import Mathlib

/-!
# Shallow embedding of the Shared Queue (SQueue) subsystem of squeue.c

This file embeds the data model and the operations of `squeue.c` (the shared
queue used for tuple exchange between a producer session and per-node consumer
sessions) and proves/refutes the frozen claims about it.

The embedding follows the source closely:
* `ConsState` mirrors the per-consumer struct (ring positions, tuple count,
  status); the ring bytes `cs_qstart[0..cs_qlength)` are carried as a
  `List Nat` field `cs_qbuf`.
* `QUEUE_WRITE` / `QUEUE_READ` mirror the split-wrap memcpy macros.
* `QUEUE_FREE_SPACE` mirrors the free-space macro.
* `sq_push_long_tuple` and the pull loop mirror the long-tuple protocol.
* `SharedQueueDump` / `SharedQueueWrite` / the read path mirror the transfer
  engine, with the producer-local tuplestore as a FIFO list of tuples.
* `SharedQueueCanPause`, the stale-queue retry loop of `SharedQueueAcquire`,
  the refcount tails of `SharedQueueUnBind` / `SharedQueueRelease` and
  `SharedQueueDisconnectConsumer` are embedded at the level the claims need.

Machine integers: C `int` values are embedded as `Int` where they can be
negative (`cs_ntuples` holds the sentinel `LONG_TUPLE = -42`) and as `Nat`
where the code keeps them non-negative (ring positions and sizes).  The 4-byte
native-order length prefix is embedded by an explicit byte encoding
`natToBytes4` / `bytes4ToNat`.
-/

namespace SQueue

/-- The `#define LONG_TUPLE -42` -/
def LONG_TUPLE : Int := -42

/-- The `#define CONSUMER_ACTIVE 0` -/
def CONSUMER_ACTIVE : Nat := 0
/-- The `#define CONSUMER_EOF 1` -/
def CONSUMER_EOF : Nat := 1
/-- The `#define CONSUMER_ERROR 2` -/
def CONSUMER_ERROR : Nat := 2
/-- The `#define CONSUMER_DONE 3` -/
def CONSUMER_DONE : Nat := 3

/-- State of a single consumer (struct `ConsState` of squeue.c).  The ring
bytes pointed to by `cs_qstart` are carried inline as `cs_qbuf`, a list whose
length is `cs_qlength` in every well-formed state. -/
@[ext]
structure ConsState where
  cs_pid : Int
  cs_node : Int
  cs_ntuples : Int
  cs_status : Nat
  cs_qbuf : List Nat
  cs_qlength : Nat
  cs_qreadpos : Nat
  cs_qwritepos : Nat
  deriving Repr, DecidableEq

/-- The `sizeof(int)` — the length prefix of a tuple record on the ring. -/
def sizeofInt : Nat := 4

/-- Little-endian 4-byte encoding of an `int` value (the code stores the
native bytes of `datarow->msglen`; the concrete byte order is irrelevant to
the claims, only that encode/decode round-trips). -/
def natToBytes4 (n : Nat) : List Nat :=
  [n % 256, n / 256 % 256, n / 256 ^ 2 % 256, n / 256 ^ 3 % 256]

/-- Decode a 4-byte length prefix back to the value. -/
def bytes4ToNat : List Nat → Nat
  | [a, b, c, d] => a + 256 * b + 256 ^ 2 * c + 256 ^ 3 * d
  | _ => 0

theorem bytes4_roundtrip (n : Nat) (h : n < 2 ^ 32) :
    bytes4ToNat (natToBytes4 n) = n := by
  simp only [natToBytes4, bytes4ToNat]
  omega

theorem natToBytes4_length (n : Nat) : (natToBytes4 n).length = 4 := rfl

/-- The `memcpy(buf + pos, src, …)` on a byte list: overwrite `buf` starting at
index `pos` with the bytes of `src` (truncated at the end of `buf`, a case
the callers never hit). -/
def memcpyAt : List Nat → Nat → List Nat → List Nat
  | [], _, _ => []
  | b :: bs, 0, [] => b :: bs
  | _ :: bs, 0, s :: ss => s :: memcpyAt bs 0 ss
  | b :: bs, pos + 1, src => b :: memcpyAt bs pos src

/-- The `QUEUE_WRITE(cstate, len, buf)`: split-wrap write of `buf` at the write
position, advancing `cs_qwritepos` (with the explicit wrap-to-zero of the
macro). -/
def QUEUE_WRITE (c : ConsState) (buf : List Nat) : ConsState :=
  let len := buf.length
  if c.cs_qwritepos + len ≤ c.cs_qlength then
    { c with
      cs_qbuf := memcpyAt c.cs_qbuf c.cs_qwritepos buf
      cs_qwritepos :=
        if c.cs_qwritepos + len = c.cs_qlength then 0 else c.cs_qwritepos + len }
  else
    let part := c.cs_qlength - c.cs_qwritepos
    let q1 := memcpyAt c.cs_qbuf c.cs_qwritepos (buf.take part)
    { c with
      cs_qbuf := memcpyAt q1 0 (buf.drop part)
      cs_qwritepos := len - part }

/-- The `QUEUE_READ(cstate, len, buf)`: split-wrap read of `len` bytes at the
read position, advancing `cs_qreadpos`; returns the bytes read and the
updated state. -/
def QUEUE_READ (c : ConsState) (len : Nat) : List Nat × ConsState :=
  if c.cs_qreadpos + len ≤ c.cs_qlength then
    ((c.cs_qbuf.drop c.cs_qreadpos).take len,
     { c with
       cs_qreadpos :=
         if c.cs_qreadpos + len = c.cs_qlength then 0 else c.cs_qreadpos + len })
  else
    let part := c.cs_qlength - c.cs_qreadpos
    ((c.cs_qbuf.drop c.cs_qreadpos).take part ++ c.cs_qbuf.take (len - part),
     { c with cs_qreadpos := len - part })

/-- The `QUEUE_FREE_SPACE(cstate)`:
`cs_ntuples > 0 ? (readpos >= writepos ? readpos - writepos
                   : qlength + readpos - writepos) : qlength`. -/
def QUEUE_FREE_SPACE (c : ConsState) : Nat :=
  if c.cs_ntuples > 0 then
    if c.cs_qreadpos ≥ c.cs_qwritepos then c.cs_qreadpos - c.cs_qwritepos
    else c.cs_qlength + c.cs_qreadpos - c.cs_qwritepos
  else c.cs_qlength

/-! ## Modular normal form of the ring primitives

`writeMod`/`readMod` describe a cyclic buffer by index arithmetic modulo the
buffer length; the lemmas below prove the branchy macros equal to them, and
every ring argument in this file goes through them. -/

/-- Write the bytes of `buf` at positions `pos, pos+1, …` modulo the buffer
length. -/
def writeMod (q : List Nat) (pos : Nat) : List Nat → List Nat
  | [] => q
  | x :: xs => writeMod (q.set (pos % q.length) x) (pos + 1) xs

/-- Read `n` bytes at positions `pos, pos+1, …` modulo the buffer length. -/
def readMod (q : List Nat) (pos n : Nat) : List Nat :=
  (List.range n).map fun i => q.getD ((pos + i) % q.length) 0

theorem writeMod_length (q : List Nat) (pos : Nat) (buf : List Nat) :
    (writeMod q pos buf).length = q.length := by
  induction buf generalizing q pos with
  | nil => rfl
  | cons x xs ih => rw [writeMod, ih, List.length_set]

theorem readMod_length (q : List Nat) (pos n : Nat) :
    (readMod q pos n).length = n := by
  simp [readMod]

theorem getD_set_ne (l : List Nat) (i j x : Nat) (h : i ≠ j) :
    (l.set i x).getD j 0 = l.getD j 0 := by
  simp [List.getD_eq_getElem?_getD, List.getElem?_set, h]

theorem getD_set_eq (l : List Nat) (i x : Nat) (h : i < l.length) :
    (l.set i x).getD i 0 = x := by
  simp [List.getD_eq_getElem?_getD, List.getElem?_set, h]

/-- Adding distinct in-range offsets to a common base gives distinct residues. -/
theorem mod_shift_ne (L pos a b : Nat) (ha : a < L) (hb : b < L) (hne : a ≠ b) :
    (pos + a) % L ≠ (pos + b) % L := by
  intro h
  have hmod : a ≡ b [MOD L] := Nat.ModEq.add_left_cancel' pos h
  have heq : a % L = b % L := hmod
  rw [Nat.mod_eq_of_lt ha, Nat.mod_eq_of_lt hb] at heq
  exact hne heq

theorem writeMod_mod (q : List Nat) (pos : Nat) (buf : List Nat) :
    writeMod q pos buf = writeMod q (pos % q.length) buf := by
  induction buf generalizing q pos with
  | nil => rfl
  | cons x xs ih =>
    have hmm : pos % q.length % q.length = pos % q.length :=
      Nat.mod_mod_of_dvd _ dvd_rfl
    rw [writeMod, writeMod, hmm]
    have hlen : (q.set (pos % q.length) x).length = q.length := List.length_set ..
    rw [ih (q.set (pos % q.length) x) (pos + 1),
        ih (q.set (pos % q.length) x) (pos % q.length + 1)]
    rw [hlen, Nat.mod_add_mod]

theorem writeMod_getD_ne (q : List Nat) (pos : Nat) (buf : List Nat) (j : Nat)
    (h : ∀ i < buf.length, (pos + i) % q.length ≠ j) :
    (writeMod q pos buf).getD j 0 = q.getD j 0 := by
  induction buf generalizing q pos with
  | nil => rfl
  | cons x xs ih =>
    rw [writeMod]
    have hlen : (q.set (pos % q.length) x).length = q.length := List.length_set ..
    rw [ih]
    · refine getD_set_ne _ _ _ _ ?_
      have h0 := h 0 (by simp)
      simpa using h0
    · intro i hi
      rw [hlen]
      have hh := h (i + 1) (by simp; omega)
      have harg : pos + 1 + i = pos + (i + 1) := by omega
      rw [harg]
      exact hh

theorem writeMod_getD_eq (q : List Nat) (pos : Nat) (buf : List Nat)
    (hle : buf.length ≤ q.length) :
    ∀ i < buf.length,
      (writeMod q pos buf).getD ((pos + i) % q.length) 0 = buf.getD i 0 := by
  induction buf generalizing q pos with
  | nil => intro i hi; simp at hi
  | cons x xs ih =>
    intro i hi
    have hL : 0 < q.length := by
      have : 0 < (x :: xs).length := by simp
      omega
    match i with
    | 0 =>
      rw [writeMod]
      have hlen : (q.set (pos % q.length) x).length = q.length := List.length_set ..
      rw [writeMod_getD_ne]
      · simp only [Nat.add_zero]
        exact getD_set_eq q (pos % q.length) x (Nat.mod_lt pos hL)
      · intro k hk
        rw [hlen]
        have harg : pos + 1 + k = pos + (1 + k) := by omega
        have harg2 : pos + 0 = pos + 0 := rfl
        rw [harg]
        have h1k : 1 + k < q.length := by
          simp at hi hle ⊢
          omega
        have := mod_shift_ne q.length pos (1 + k) 0 h1k hL (by omega)
        simpa using this
    | i + 1 =>
      rw [writeMod]
      have hlen : (q.set (pos % q.length) x).length = q.length := List.length_set ..
      have hxs : xs.length ≤ (q.set (pos % q.length) x).length := by
        rw [hlen]; simp at hle; omega
      have := ih (q.set (pos % q.length) x) (pos + 1) hxs i (by simp at hi; omega)
      rw [hlen] at this
      have harg : pos + 1 + i = pos + (i + 1) := by omega
      rw [harg] at this
      simpa using this

/-- Read-back after write: reading the written region returns the bytes. -/
theorem readMod_writeMod (q : List Nat) (pos : Nat) (buf : List Nat)
    (h : buf.length ≤ q.length) :
    readMod (writeMod q pos buf) pos buf.length = buf := by
  apply List.ext_getElem
  · simp [readMod_length]
  · intro i h1 h2
    rw [readMod_length] at h1
    simp only [readMod, List.getElem_map, List.getElem_range, writeMod_length]
    rw [writeMod_getD_eq q pos buf h i h1]
    exact List.getD_eq_getElem buf 0 h2

/-- Writing at the region that starts `n` bytes after `r` does not disturb the
`n` bytes readable from `r` (all mod the buffer length). -/
theorem readMod_writeMod_disjoint (q : List Nat) (r n : Nat) (buf : List Nat)
    (hq : n + buf.length ≤ q.length) :
    readMod (writeMod q ((r + n) % q.length) buf) r n = readMod q r n := by
  apply List.ext_getElem
  · simp [readMod_length]
  · intro i h1 h2
    rw [readMod_length] at h1
    simp only [readMod, List.getElem_map, List.getElem_range, writeMod_length]
    rw [writeMod_getD_ne]
    intro k hk heq
    rw [Nat.mod_add_mod] at heq
    have harg : r + n + k = r + (n + k) := by omega
    rw [harg] at heq
    exact mod_shift_ne q.length r (n + k) i (by omega) (by omega) (by omega) heq

theorem readMod_add (q : List Nat) (pos m n : Nat) :
    readMod q pos (m + n) = readMod q pos m ++ readMod q (pos + m) n := by
  simp only [readMod, List.range_add, List.map_append, List.map_map]
  congr 1
  apply List.map_congr_left
  intro i _
  simp only [Function.comp_apply]
  congr 2
  omega

theorem readMod_mod (q : List Nat) (pos n : Nat) :
    readMod q pos n = readMod q (pos % q.length) n := by
  simp only [readMod]
  apply List.map_congr_left
  intro i _
  rw [Nat.mod_add_mod]

theorem writeMod_append (q : List Nat) (pos : Nat) (a b : List Nat) :
    writeMod q pos (a ++ b) = writeMod (writeMod q pos a) (pos + a.length) b := by
  induction a generalizing q pos with
  | nil => simp [writeMod]
  | cons x xs ih =>
    rw [List.cons_append, writeMod, writeMod, ih]
    congr 1
    simp
    omega

theorem memcpyAt_nil : ∀ (q : List Nat) (pos : Nat), memcpyAt q pos [] = q
  | [], _ => rfl
  | _ :: _, 0 => rfl
  | b :: bs, pos + 1 => by rw [memcpyAt, memcpyAt_nil bs pos]


theorem writeMod_cons_of_le (x : Nat) (q : List Nat) (pos : Nat) (src : List Nat)
    (h : pos + src.length ≤ q.length) :
    writeMod (x :: q) (pos + 1) src = x :: writeMod q pos src := by
  induction src generalizing x q pos with
  | nil => rfl
  | cons s ss ih =>
    rw [writeMod, writeMod]
    have h1 : pos + 1 < (x :: q).length := by simp at h ⊢; omega
    have h2 : pos < q.length := by simp at h; omega
    rw [Nat.mod_eq_of_lt h1, Nat.mod_eq_of_lt h2]
    have hset : (x :: q).set (pos + 1) s = x :: q.set pos s := rfl
    rw [hset]
    exact ih x (q.set pos s) (pos + 1) (by rw [List.length_set]; simp at h; omega)

theorem memcpyAt_eq_writeMod :
    ∀ (q : List Nat) (pos : Nat) (src : List Nat),
      pos + src.length ≤ q.length → memcpyAt q pos src = writeMod q pos src
  | [], pos, src, h => by
    have : src = [] := by
      cases src with
      | nil => rfl
      | cons s ss => simp at h
    subst this
    rw [memcpyAt_nil]; rfl
  | b :: bs, 0, [], _ => rfl
  | b :: bs, 0, s :: ss, h => by
    rw [memcpyAt, writeMod]
    have hlen : 0 % (b :: bs).length = 0 := Nat.zero_mod _
    rw [hlen]
    have hset : (b :: bs).set 0 s = s :: bs := rfl
    rw [hset]
    have hss : 0 + ss.length ≤ bs.length := by simp at h; omega
    rw [memcpyAt_eq_writeMod bs 0 ss hss]
    exact (writeMod_cons_of_le s bs 0 ss hss).symm
  | b :: bs, pos + 1, src, h => by
    rw [memcpyAt]
    have hsrc : pos + src.length ≤ bs.length := by simp at h; omega
    rw [memcpyAt_eq_writeMod bs pos src hsrc]
    exact (writeMod_cons_of_le b bs pos src hsrc).symm

/-- Sum of two values below/at the modulus, reduced. -/
theorem add_mod_cases (a b L : Nat) (ha : a < L) (hb : b ≤ L) :
    (a + b) % L = if a + b < L then a + b else a + b - L := by
  split
  · exact Nat.mod_eq_of_lt (by omega)
  · rw [Nat.mod_eq_sub_mod (by omega)]
    exact Nat.mod_eq_of_lt (by omega)

/-- Normal form of `QUEUE_WRITE`: under the in-bounds conditions the callers
maintain, a split-wrap write is a modular write advancing the write position
modulo the ring length. -/
theorem QUEUE_WRITE_norm (c : ConsState) (buf : List Nat)
    (hbuf : c.cs_qbuf.length = c.cs_qlength)
    (hw : c.cs_qwritepos < c.cs_qlength)
    (hlen : buf.length ≤ c.cs_qlength) :
    QUEUE_WRITE c buf =
      { c with
        cs_qbuf := writeMod c.cs_qbuf c.cs_qwritepos buf
        cs_qwritepos := (c.cs_qwritepos + buf.length) % c.cs_qlength } := by
  rw [QUEUE_WRITE]
  by_cases hcase : c.cs_qwritepos + buf.length ≤ c.cs_qlength
  · simp only [hcase, if_true]
    have h1 : memcpyAt c.cs_qbuf c.cs_qwritepos buf
        = writeMod c.cs_qbuf c.cs_qwritepos buf :=
      memcpyAt_eq_writeMod _ _ _ (by omega)
    have h2 : (if c.cs_qwritepos + buf.length = c.cs_qlength then 0
          else c.cs_qwritepos + buf.length)
        = (c.cs_qwritepos + buf.length) % c.cs_qlength := by
      by_cases heq : c.cs_qwritepos + buf.length = c.cs_qlength
      · rw [if_pos heq, heq, Nat.mod_self]
      · rw [if_neg heq, Nat.mod_eq_of_lt (by omega)]
    rw [h1, h2]
  · simp only [hcase, if_false]
    have htake : (buf.take (c.cs_qlength - c.cs_qwritepos)).length
        = c.cs_qlength - c.cs_qwritepos := by
      rw [List.length_take]; omega
    have h1 : memcpyAt c.cs_qbuf c.cs_qwritepos
          (buf.take (c.cs_qlength - c.cs_qwritepos))
        = writeMod c.cs_qbuf c.cs_qwritepos
          (buf.take (c.cs_qlength - c.cs_qwritepos)) :=
      memcpyAt_eq_writeMod _ _ _ (by rw [htake]; omega)
    have hq1len : (writeMod c.cs_qbuf c.cs_qwritepos
        (buf.take (c.cs_qlength - c.cs_qwritepos))).length = c.cs_qlength := by
      rw [writeMod_length, hbuf]
    have h2 : memcpyAt (writeMod c.cs_qbuf c.cs_qwritepos
          (buf.take (c.cs_qlength - c.cs_qwritepos))) 0
          (buf.drop (c.cs_qlength - c.cs_qwritepos))
        = writeMod (writeMod c.cs_qbuf c.cs_qwritepos
          (buf.take (c.cs_qlength - c.cs_qwritepos))) 0
          (buf.drop (c.cs_qlength - c.cs_qwritepos)) :=
      memcpyAt_eq_writeMod _ _ _ (by rw [hq1len, List.length_drop]; omega)
    have h3 : writeMod c.cs_qbuf c.cs_qwritepos buf
        = writeMod (writeMod c.cs_qbuf c.cs_qwritepos
          (buf.take (c.cs_qlength - c.cs_qwritepos))) 0
          (buf.drop (c.cs_qlength - c.cs_qwritepos)) := by
      conv_lhs =>
        rw [← List.take_append_drop (c.cs_qlength - c.cs_qwritepos) buf]
      rw [writeMod_append, htake]
      have hL : c.cs_qwritepos + (c.cs_qlength - c.cs_qwritepos)
          = c.cs_qlength := by omega
      rw [hL, writeMod_mod _ c.cs_qlength, hq1len, Nat.mod_self]
    have h4 : buf.length - (c.cs_qlength - c.cs_qwritepos)
        = (c.cs_qwritepos + buf.length) % c.cs_qlength := by
      rw [add_mod_cases _ _ _ hw hlen, if_neg (by omega)]
      omega
    rw [h1, h2, ← h3, h4]

theorem getD_eq_getElem_of_eq {l : List Nat} {i j : Nat} (h : i < l.length)
    (hij : i = j) : l.getD j 0 = l[i] := by
  subst hij
  exact List.getD_eq_getElem l 0 h

/-- Normal form of `QUEUE_READ`: under the in-bounds conditions the callers
maintain, a split-wrap read is a modular read advancing the read position
modulo the ring length. -/
theorem QUEUE_READ_norm (c : ConsState) (n : Nat)
    (hbuf : c.cs_qbuf.length = c.cs_qlength)
    (hr : c.cs_qreadpos < c.cs_qlength)
    (hn : n ≤ c.cs_qlength) :
    QUEUE_READ c n =
      (readMod c.cs_qbuf c.cs_qreadpos n,
       { c with cs_qreadpos := (c.cs_qreadpos + n) % c.cs_qlength }) := by
  rw [QUEUE_READ]
  by_cases hcase : c.cs_qreadpos + n ≤ c.cs_qlength
  · simp only [hcase, if_true]
    have hbytes : (c.cs_qbuf.drop c.cs_qreadpos).take n
        = readMod c.cs_qbuf c.cs_qreadpos n := by
      apply List.ext_getElem
      · rw [readMod_length, List.length_take, List.length_drop]; omega
      · intro i h1 h2
        rw [List.length_take, List.length_drop] at h1
        rw [List.getElem_take, List.getElem_drop]
        simp only [readMod, List.getElem_map, List.getElem_range]
        exact (getD_eq_getElem_of_eq (by omega)
          (by rw [hbuf, Nat.mod_eq_of_lt (by omega)])).symm
    have hpos : (if c.cs_qreadpos + n = c.cs_qlength then 0
          else c.cs_qreadpos + n) = (c.cs_qreadpos + n) % c.cs_qlength := by
      by_cases heq : c.cs_qreadpos + n = c.cs_qlength
      · rw [if_pos heq, heq, Nat.mod_self]
      · rw [if_neg heq, Nat.mod_eq_of_lt (by omega)]
    rw [hbytes, hpos]
  · simp only [hcase, if_false]
    have hbytes : (c.cs_qbuf.drop c.cs_qreadpos).take (c.cs_qlength - c.cs_qreadpos)
          ++ c.cs_qbuf.take (n - (c.cs_qlength - c.cs_qreadpos))
        = readMod c.cs_qbuf c.cs_qreadpos n := by
      apply List.ext_getElem
      · rw [readMod_length, List.length_append, List.length_take, List.length_take,
            List.length_drop, hbuf]
        omega
      · intro i h1 h2
        rw [readMod_length] at h2
        simp only [readMod, List.getElem_map, List.getElem_range]
        by_cases hi : i < c.cs_qlength - c.cs_qreadpos
        · rw [List.getElem_append_left (by
            rw [List.length_take, List.length_drop]; omega)]
          rw [List.getElem_take, List.getElem_drop]
          exact (getD_eq_getElem_of_eq (by omega)
            (by rw [hbuf, Nat.mod_eq_of_lt (by omega)])).symm
        · rw [List.getElem_append_right (by
            rw [List.length_take, List.length_drop]; omega)]
          rw [List.getElem_take]
          exact (getD_eq_getElem_of_eq
            (by rw [List.length_take, List.length_drop]; omega)
            (by rw [List.length_take, List.length_drop, hbuf,
                add_mod_cases _ _ _ hr (by omega), if_neg (by omega)]
                omega)).symm
    have hpos : n - (c.cs_qlength - c.cs_qreadpos)
        = (c.cs_qreadpos + n) % c.cs_qlength := by
      rw [add_mod_cases _ _ _ hr hn, if_neg (by omega)]
      omega
    rw [hbytes, hpos]

/-! ## Tuple records and the ring representation invariant -/

/-- The on-ring record of one tuple: 4-byte length prefix followed by the
payload bytes (§ "A tuple record on the ring"). -/
def encodeRec (t : List Nat) : List Nat := natToBytes4 t.length ++ t

/-- The byte image of a list of queued tuples, oldest first. -/
def encodeAll (ts : List (List Nat)) : List Nat := (ts.map encodeRec).flatten

theorem encodeRec_length (t : List Nat) : (encodeRec t).length = 4 + t.length := by
  simp [encodeRec, natToBytes4]
  omega

theorem encodeAll_nil : encodeAll [] = [] := rfl

theorem encodeAll_cons (t : List Nat) (ts : List (List Nat)) :
    encodeAll (t :: ts) = encodeRec t ++ encodeAll ts := by
  simp [encodeAll]

theorem encodeAll_append_one (ts : List (List Nat)) (t : List Nat) :
    encodeAll (ts ++ [t]) = encodeAll ts ++ encodeRec t := by
  simp [encodeAll]

/-- Representation invariant of a consumer slot in normal (non long-tuple)
operation: the ring bytes starting at `cs_qreadpos` decode to exactly the
queued tuples `ts`, `cs_qwritepos` sits right after them, and `cs_ntuples`
counts them.  Every queued tuple fits a ring (`≤ cs_qlength - 4`) and its
length fits a positive C `int`. -/
structure WF (c : ConsState) (ts : List (List Nat)) : Prop where
  hfour : 4 < c.cs_qlength
  hbuf : c.cs_qbuf.length = c.cs_qlength
  hr : c.cs_qreadpos < c.cs_qlength
  hw : c.cs_qwritepos = (c.cs_qreadpos + (encodeAll ts).length) % c.cs_qlength
  htot : (encodeAll ts).length ≤ c.cs_qlength
  hnt : c.cs_ntuples = (ts.length : Int)
  hcontent : readMod c.cs_qbuf c.cs_qreadpos (encodeAll ts).length = encodeAll ts
  hfit : ∀ t ∈ ts, t.length ≤ c.cs_qlength - 4 ∧ t.length < 2 ^ 31

/-- Claim C3, second half (under the representation invariant): the
free-space macro computes ring length minus the used bytes, length prefixes
included. -/
theorem QUEUE_FREE_SPACE_eq_unused (c : ConsState) (ts : List (List Nat))
    (h : WF c ts) :
    QUEUE_FREE_SPACE c = c.cs_qlength - (encodeAll ts).length := by
  cases ts with
  | nil =>
    have hnt := h.hnt
    rw [QUEUE_FREE_SPACE, if_neg (by rw [hnt]; simp)]
    simp [encodeAll_nil]
  | cons t ts' =>
    have hnt := h.hnt
    have hw := h.hw
    have htpos : 0 < (encodeAll (t :: ts')).length := by
      rw [encodeAll_cons, List.length_append, encodeRec_length]
      omega
    rw [add_mod_cases _ _ _ h.hr h.htot] at hw
    rw [QUEUE_FREE_SPACE, if_pos (by rw [hnt]; exact_mod_cast Nat.succ_pos _)]
    have htot := h.htot
    split at hw <;> split <;> omega

/-- The ring-write of one tuple shared by `SharedQueueWrite` and
`SharedQueueDump`:
`QUEUE_WRITE(sizeof(int), &msglen); QUEUE_WRITE(msglen, msg); cs_ntuples++`
(the `SetLatch` fired when the count was zero is a pure wakeup side effect). -/
def writeTupleRing (c : ConsState) (t : List Nat) : ConsState :=
  let c1 := QUEUE_WRITE c (natToBytes4 t.length)
  let c2 := QUEUE_WRITE c1 t
  { c2 with cs_ntuples := c2.cs_ntuples + 1 }

/-- Normal form of the tuple-record write: one modular write of the whole
record, advancing the write position by `4 + t.length` and bumping the tuple
count. -/
theorem writeTupleRing_norm (c : ConsState) (t : List Nat)
    (hbuf : c.cs_qbuf.length = c.cs_qlength)
    (hw : c.cs_qwritepos < c.cs_qlength)
    (hlen : 4 + t.length ≤ c.cs_qlength) :
    writeTupleRing c t =
      { c with
        cs_qbuf := writeMod c.cs_qbuf c.cs_qwritepos (encodeRec t)
        cs_qwritepos := (c.cs_qwritepos + (4 + t.length)) % c.cs_qlength
        cs_ntuples := c.cs_ntuples + 1 } := by
  have hLpos : 0 < c.cs_qlength := by omega
  have h1 := QUEUE_WRITE_norm c (natToBytes4 t.length) hbuf hw
    (by rw [natToBytes4_length]; omega)
  rw [natToBytes4_length] at h1
  simp only [writeTupleRing]
  rw [h1]
  rw [QUEUE_WRITE_norm _ t (by simp [writeMod_length, hbuf])
    (by simp [Nat.mod_lt _ hLpos]) (by simp; omega)]
  refine ConsState.ext rfl rfl rfl rfl ?_ rfl rfl ?_
  · show writeMod (writeMod c.cs_qbuf c.cs_qwritepos (natToBytes4 t.length))
        ((c.cs_qwritepos + 4) % c.cs_qlength) t
      = writeMod c.cs_qbuf c.cs_qwritepos (encodeRec t)
    rw [encodeRec, writeMod_append, natToBytes4_length]
    conv_rhs => rw [writeMod_mod]
    rw [writeMod_length, hbuf]
  · show ((c.cs_qwritepos + 4) % c.cs_qlength + t.length) % c.cs_qlength
      = (c.cs_qwritepos + (4 + t.length)) % c.cs_qlength
    rw [Nat.mod_add_mod]
    have : c.cs_qwritepos + 4 + t.length = c.cs_qwritepos + (4 + t.length) := by
      omega
    rw [this]

/-- The write step preserves the representation invariant, appending the tuple
to the abstract queue, and touches no other slot field. -/
theorem writeTupleRing_WF (c : ConsState) (ts : List (List Nat)) (t : List Nat)
    (h : WF c ts) (hfree : sizeofInt + t.length ≤ QUEUE_FREE_SPACE c)
    (hlt : t.length ≤ c.cs_qlength - 4) (h31 : t.length < 2 ^ 31) :
    WF (writeTupleRing c t) (ts ++ [t]) ∧
      (writeTupleRing c t).cs_status = c.cs_status ∧
      (writeTupleRing c t).cs_qlength = c.cs_qlength ∧
      (writeTupleRing c t).cs_qreadpos = c.cs_qreadpos ∧
      (writeTupleRing c t).cs_ntuples = c.cs_ntuples + 1 := by
  have hLpos : 0 < c.cs_qlength := by have := h.hfour; omega
  have hfree' := QUEUE_FREE_SPACE_eq_unused c ts h
  rw [hfree'] at hfree
  have hroom : (encodeAll ts).length + (4 + t.length) ≤ c.cs_qlength := by
    have := h.htot
    simp only [sizeofInt] at hfree
    omega
  have hwlt : c.cs_qwritepos < c.cs_qlength := by
    rw [h.hw]; exact Nat.mod_lt _ hLpos
  rw [writeTupleRing_norm c t h.hbuf hwlt (by omega)]
  refine ⟨⟨h.hfour, ?_, h.hr, ?_, ?_, ?_, ?_, ?_⟩, rfl, rfl, rfl, rfl⟩
  · -- buffer length
    show (writeMod c.cs_qbuf c.cs_qwritepos (encodeRec t)).length = c.cs_qlength
    rw [writeMod_length, h.hbuf]
  · -- write position
    show (c.cs_qwritepos + (4 + t.length)) % c.cs_qlength
      = (c.cs_qreadpos + (encodeAll (ts ++ [t])).length) % c.cs_qlength
    rw [h.hw, Nat.mod_add_mod, encodeAll_append_one, List.length_append,
        encodeRec_length]
    have : c.cs_qreadpos + (encodeAll ts).length + (4 + t.length)
        = c.cs_qreadpos + ((encodeAll ts).length + (4 + t.length)) := by omega
    rw [this]
  · -- total bytes bound
    show (encodeAll (ts ++ [t])).length ≤ c.cs_qlength
    rw [encodeAll_append_one, List.length_append, encodeRec_length]
    omega
  · -- tuple count
    show c.cs_ntuples + 1 = ((ts ++ [t]).length : Int)
    rw [h.hnt, List.length_append, List.length_singleton]
    push_cast
    ring
  · -- ring content
    show readMod (writeMod c.cs_qbuf c.cs_qwritepos (encodeRec t)) c.cs_qreadpos
        (encodeAll (ts ++ [t])).length = encodeAll (ts ++ [t])
    have hwq : c.cs_qwritepos
        = (c.cs_qreadpos + (encodeAll ts).length) % c.cs_qbuf.length := by
      rw [h.hbuf]; exact h.hw
    have hpart1 : readMod (writeMod c.cs_qbuf c.cs_qwritepos (encodeRec t))
        c.cs_qreadpos (encodeAll ts).length = encodeAll ts := by
      conv_lhs => rw [hwq]
      rw [readMod_writeMod_disjoint c.cs_qbuf c.cs_qreadpos
        (encodeAll ts).length (encodeRec t)
        (by rw [encodeRec_length, h.hbuf]; omega)]
      exact h.hcontent
    have hWlen : (writeMod c.cs_qbuf c.cs_qwritepos (encodeRec t)).length
        = c.cs_qbuf.length := writeMod_length ..
    have hpart2 : readMod (writeMod c.cs_qbuf c.cs_qwritepos (encodeRec t))
        (c.cs_qreadpos + (encodeAll ts).length) (encodeRec t).length
        = encodeRec t := by
      rw [readMod_mod, hWlen, h.hbuf, ← h.hw]
      exact readMod_writeMod _ _ _ (by rw [encodeRec_length, h.hbuf]; omega)
    rw [encodeAll_append_one, List.length_append, readMod_add, hpart1, hpart2]
  · -- per-tuple bounds
    intro t' ht'
    rcases List.mem_append.mp ht' with h' | h'
    · exact h.hfit t' h'
    · rw [List.mem_singleton] at h'
      subst h'
      exact ⟨hlt, h31⟩

/-! ## The Read path (SharedQueueRead) -/

/-- How one pass of the `SharedQueueRead` body ends.  `retFalseLong` marks the
branch `datalen > cs_qlength - sizeof(int)` that enters `sq_pull_long_tuple`
(the interactive long-tuple pull is modelled separately as `pullLongTuple`);
after the pull the source stores the row and returns `false` exactly like the
short branch. -/
inductive ReadResult where
  | retTrue
  | retFalseRow (row : List Nat)
  | retFalseLong (datalen : Nat)
  | retFalseEmpty
  | errorProducer
  | waitMore
  deriving Repr, DecidableEq

/-- Latch / lock / destination-slot side effects of the read path, listed in
program order. -/
inductive SideEffect where
  | disownLatch
  | setProducerLatch
  | resetConsumerLatch
  | waitConsumerLatch
  | clearSlot
  | releaseConsumerLock
  | releaseProducerLock
  deriving Repr, DecidableEq

/-- One pass of the body of `SharedQueueRead` (after the entry lock
acquisitions): the `while (cs_ntuples <= 0)` dispatch on `cs_status` and
`canwait`, and the `ntuples > 0` tail that reads the 4-byte length and either
enters the long-tuple pull or reads the payload and decrements `cs_ntuples`.
`waitMore` is the suspension point — the loop iterates only after the
producer acts. -/
def SharedQueueReadModel (c : ConsState) (canwait : Bool) :
    ReadResult × ConsState × List SideEffect :=
  if c.cs_ntuples ≤ 0 then
    if c.cs_status = CONSUMER_EOF then
      (.retTrue, { c with cs_status := CONSUMER_DONE },
       [.disownLatch, .releaseConsumerLock, .clearSlot, .setProducerLatch,
        .releaseProducerLock])
    else if c.cs_status = CONSUMER_ERROR then
      (.errorProducer, c, [.releaseConsumerLock, .releaseProducerLock])
    else if canwait then
      (.waitMore, c,
       [.resetConsumerLatch, .releaseConsumerLock, .setProducerLatch,
        .releaseProducerLock, .waitConsumerLatch])
    else
      (.retFalseEmpty, c,
       [.releaseConsumerLock, .releaseProducerLock, .clearSlot])
  else
    let rd := QUEUE_READ c sizeofInt
    let datalen := bytes4ToNat rd.1
    if datalen > c.cs_qlength - sizeofInt then
      (.retFalseLong datalen, rd.2, [])
    else
      let rd2 := QUEUE_READ rd.2 datalen
      (.retFalseRow rd2.1,
       { rd2.2 with cs_ntuples := rd2.2.cs_ntuples - 1 },
       [.releaseConsumerLock, .releaseProducerLock])

/-- Reading from a well-formed non-empty slot returns the oldest tuple and
preserves the invariant on the remaining ones. -/
theorem SharedQueueReadModel_cons (c : ConsState) (t : List Nat)
    (ts : List (List Nat)) (w : Bool) (h : WF c (t :: ts)) :
    (SharedQueueReadModel c w).1 = ReadResult.retFalseRow t ∧
    WF (SharedQueueReadModel c w).2.1 ts ∧
    (SharedQueueReadModel c w).2.1.cs_status = c.cs_status ∧
    (SharedQueueReadModel c w).2.1.cs_qlength = c.cs_qlength ∧
    (SharedQueueReadModel c w).2.1.cs_qwritepos = c.cs_qwritepos := by
  have hL : 4 < c.cs_qlength := h.hfour
  have hLpos : 0 < c.cs_qlength := by omega
  have hfit := h.hfit t (by simp)
  have hntpos : ¬ c.cs_ntuples ≤ 0 := by
    rw [h.hnt]; simp only [List.length_cons]; omega
  have hlenenc : (encodeAll (t :: ts)).length
      = 4 + (t.length + (encodeAll ts).length) := by
    rw [encodeAll_cons, List.length_append, encodeRec_length]; omega
  -- split the stored bytes into prefix, payload, rest
  have hEq : readMod c.cs_qbuf c.cs_qreadpos 4
      ++ readMod c.cs_qbuf (c.cs_qreadpos + 4) (t.length + (encodeAll ts).length)
      = natToBytes4 t.length ++ (t ++ encodeAll ts) := by
    rw [← readMod_add]
    rw [← hlenenc, h.hcontent, encodeAll_cons, encodeRec, List.append_assoc]
  have hpref := List.append_inj hEq (by rw [readMod_length, natToBytes4_length])
  have hEq2 := hpref.2
  rw [readMod_add] at hEq2
  have hpay := List.append_inj hEq2 (by rw [readMod_length])
  -- the 4-byte length read
  have hq4 : QUEUE_READ c sizeofInt
      = (natToBytes4 t.length,
         { c with cs_qreadpos := (c.cs_qreadpos + 4) % c.cs_qlength }) := by
    rw [show sizeofInt = 4 from rfl]
    rw [QUEUE_READ_norm c 4 h.hbuf h.hr (by omega)]
    rw [hpref.1]
  -- the payload read
  have hq5 : QUEUE_READ
        { c with cs_qreadpos := (c.cs_qreadpos + 4) % c.cs_qlength } t.length
      = (t, { c with
          cs_qreadpos := (c.cs_qreadpos + (4 + t.length)) % c.cs_qlength }) := by
    rw [QUEUE_READ_norm _ t.length (by simpa using h.hbuf)
      (by simpa using Nat.mod_lt _ hLpos) (by simp; omega)]
    have hbytes : readMod c.cs_qbuf ((c.cs_qreadpos + 4) % c.cs_qlength) t.length
        = t := by
      rw [← h.hbuf, ← readMod_mod]
      exact hpay.1
    have hpos : ((c.cs_qreadpos + 4) % c.cs_qlength + t.length) % c.cs_qlength
        = (c.cs_qreadpos + (4 + t.length)) % c.cs_qlength := by
      rw [Nat.mod_add_mod]
      have : c.cs_qreadpos + 4 + t.length
          = c.cs_qreadpos + (4 + t.length) := by omega
      rw [this]
    refine Prod.ext ?_ ?_
    · simpa using hbytes
    · simp only
      refine ConsState.ext rfl rfl rfl rfl rfl rfl ?_ rfl
      simpa using hpos
  have hdl : bytes4ToNat (natToBytes4 t.length) = t.length :=
    bytes4_roundtrip t.length (by omega)
  have hnotlong : ¬ t.length > c.cs_qlength - sizeofInt := by
    simp only [sizeofInt]; omega
  simp only [SharedQueueReadModel, if_neg hntpos, hq4, hdl, hq5]
  rw [if_neg hnotlong]
  have hread := h.hcontent
  refine ⟨rfl, ⟨h.hfour, h.hbuf, Nat.mod_lt _ hLpos, ?_, ?_, ?_, ?_, ?_⟩,
    rfl, rfl, rfl⟩
  · -- write position
    show c.cs_qwritepos
      = ((c.cs_qreadpos + (4 + t.length)) % c.cs_qlength
          + (encodeAll ts).length) % c.cs_qlength
    rw [Nat.mod_add_mod, h.hw, hlenenc]
    have : c.cs_qreadpos + (4 + t.length) + (encodeAll ts).length
        = c.cs_qreadpos + (4 + (t.length + (encodeAll ts).length)) := by omega
    rw [this]
  · -- total bytes bound
    show (encodeAll ts).length ≤ c.cs_qlength
    have := h.htot
    rw [hlenenc] at this
    omega
  · -- tuple count
    show c.cs_ntuples - 1 = (ts.length : Int)
    rw [h.hnt, List.length_cons]
    push_cast
    ring
  · -- ring content
    show readMod c.cs_qbuf ((c.cs_qreadpos + (4 + t.length)) % c.cs_qlength)
        (encodeAll ts).length = encodeAll ts
    rw [← h.hbuf, ← readMod_mod]
    have : c.cs_qreadpos + (4 + t.length)
        = c.cs_qreadpos + 4 + t.length := by omega
    rw [this]
    exact hpay.2
  · -- per-tuple bounds
    intro t' ht'
    exact h.hfit t' (by simp [ht'])

/-! ## The long-tuple protocol (sq_push_long_tuple / sq_pull_long_tuple) -/

/-- The `sq_push_long_tuple(cstate, datarow)` for payload `msg`.  First call
(`cs_ntuples == 0`): write the full length and the first `cs_qlength - 4`
payload bytes.  Subsequent calls (entered with `cs_ntuples == LONG_TUPLE`):
read the consumer's offset from the ring base, write a remaining-length
header and up to `cs_qlength - 4` further payload bytes.  Returns `true` iff
the payload is now fully written. -/
def sq_push_long_tuple (c : ConsState) (msg : List Nat) : Bool × ConsState :=
  if c.cs_ntuples = 0 then
    let c1 := QUEUE_WRITE c (natToBytes4 msg.length)
    let c2 := QUEUE_WRITE c1 (msg.take (c.cs_qlength - sizeofInt))
    (false, { c2 with cs_ntuples := 1 })
  else
    let offset := bytes4ToNat (c.cs_qbuf.take 4)
    let len := msg.length - offset
    let c1 := QUEUE_WRITE c (natToBytes4 len)
    if len > c.cs_qlength - sizeofInt then
      let c2 := QUEUE_WRITE c1 ((msg.drop offset).take (c.cs_qlength - sizeofInt))
      (false, { c2 with cs_ntuples := 1 })
    else
      let c2 := QUEUE_WRITE c1 ((msg.drop offset).take len)
      (true, { c2 with cs_ntuples := 1 })

/-- The `sq_pull_long_tuple(cstate, datarow)` with the producer's
`sq_push_long_tuple` substituted at the latch-wait point (the source sleeps in
`while (cs_ntuples == LONG_TUPLE)` until the producer pushes the next chunk
and sets `cs_ntuples` back to 1).  `acc` is the prefix of `datarow->msg`
already filled (so `acc.length = offset`), `offset`/`len` mirror the source
variables; `fuel` bounds the iterations, `none` meaning the fuel ran out. -/
def pullLongTuple (msg : List Nat) :
    Nat → ConsState → List Nat → Nat → Nat → Option (List Nat) × ConsState
  | 0, c, _, _, _ => (none, c)
  | fuel + 1, c, acc, offset, len =>
    let len' := if len > c.cs_qlength - sizeofInt then c.cs_qlength - sizeofInt
                else len
    let rd := QUEUE_READ c len'
    let acc' := acc ++ rd.1
    let offset' := offset + len'
    if offset' = msg.length then (some acc', rd.2)
    else
      let cw : ConsState :=
        { rd.2 with
          cs_ntuples := LONG_TUPLE
          cs_qbuf := memcpyAt rd.2.cs_qbuf 0 (natToBytes4 offset') }
      let push := sq_push_long_tuple cw msg
      let rd2 := QUEUE_READ push.2 sizeofInt
      pullLongTuple msg fuel rd2.2 acc' offset' (bytes4ToNat rd2.1)

/-- Two consecutive `QUEUE_WRITE`s act as one modular write of the
concatenation. -/
theorem QUEUE_WRITE_pair (c : ConsState) (a b : List Nat)
    (hbuf : c.cs_qbuf.length = c.cs_qlength)
    (hw : c.cs_qwritepos < c.cs_qlength)
    (hab : a.length + b.length ≤ c.cs_qlength) :
    QUEUE_WRITE (QUEUE_WRITE c a) b =
      { c with
        cs_qbuf := writeMod c.cs_qbuf c.cs_qwritepos (a ++ b)
        cs_qwritepos :=
          (c.cs_qwritepos + (a.length + b.length)) % c.cs_qlength } := by
  have hLpos : 0 < c.cs_qlength := lt_of_le_of_lt (Nat.zero_le _) hw
  rw [QUEUE_WRITE_norm c a hbuf hw (by omega)]
  rw [QUEUE_WRITE_norm _ b (by simp [writeMod_length, hbuf])
    (by simp [Nat.mod_lt _ hLpos]) (by simp; omega)]
  refine ConsState.ext rfl rfl rfl rfl ?_ rfl rfl ?_
  · show writeMod (writeMod c.cs_qbuf c.cs_qwritepos a)
        ((c.cs_qwritepos + a.length) % c.cs_qlength) b
      = writeMod c.cs_qbuf c.cs_qwritepos (a ++ b)
    rw [writeMod_append]
    conv_rhs => rw [writeMod_mod]
    rw [writeMod_length, hbuf]
  · show ((c.cs_qwritepos + a.length) % c.cs_qlength + b.length) % c.cs_qlength
      = (c.cs_qwritepos + (a.length + b.length)) % c.cs_qlength
    rw [Nat.mod_add_mod]
    have : c.cs_qwritepos + a.length + b.length
        = c.cs_qwritepos + (a.length + b.length) := by omega
    rw [this]

theorem readMod_zero_take (q : List Nat) (n : Nat) (h : n ≤ q.length) :
    readMod q 0 n = q.take n := by
  apply List.ext_getElem
  · rw [readMod_length, List.length_take]; omega
  · intro i h1 h2
    rw [readMod_length] at h1
    simp only [readMod, List.getElem_map, List.getElem_range, Nat.zero_add]
    rw [List.getElem_take]
    exact getD_eq_getElem_of_eq (by omega) (Nat.mod_eq_of_lt (by omega)).symm

/-- First push of a long tuple (ring empty). -/
theorem sq_push_long_tuple_first (c : ConsState) (msg : List Nat)
    (hnt : c.cs_ntuples = 0)
    (hbuf : c.cs_qbuf.length = c.cs_qlength)
    (hw : c.cs_qwritepos < c.cs_qlength)
    (hfour : 4 < c.cs_qlength) :
    sq_push_long_tuple c msg =
      (false,
       { c with
         cs_qbuf := writeMod c.cs_qbuf c.cs_qwritepos
           (natToBytes4 msg.length ++ msg.take (c.cs_qlength - 4))
         cs_qwritepos := (c.cs_qwritepos
           + (4 + (msg.take (c.cs_qlength - 4)).length)) % c.cs_qlength
         cs_ntuples := 1 }) := by
  simp only [sq_push_long_tuple, if_pos hnt, sizeofInt]
  rw [QUEUE_WRITE_pair c (natToBytes4 msg.length) (msg.take (c.cs_qlength - 4))
    hbuf hw (by rw [natToBytes4_length, List.length_take]; omega)]
  rw [natToBytes4_length]

/-- Continuation push of a long tuple, after the consumer stored `offset` at
the ring base. -/
theorem sq_push_long_tuple_cont (c : ConsState) (msg : List Nat) (offset : Nat)
    (hnt : c.cs_ntuples ≠ 0)
    (hbuf : c.cs_qbuf.length = c.cs_qlength)
    (hw : c.cs_qwritepos < c.cs_qlength)
    (hfour : 4 < c.cs_qlength)
    (hoff : bytes4ToNat (c.cs_qbuf.take 4) = offset) :
    sq_push_long_tuple c msg =
      (decide (¬ msg.length - offset > c.cs_qlength - 4),
       { c with
         cs_qbuf := writeMod c.cs_qbuf c.cs_qwritepos
           (natToBytes4 (msg.length - offset)
             ++ (msg.drop offset).take
                 (min (msg.length - offset) (c.cs_qlength - 4)))
         cs_qwritepos := (c.cs_qwritepos
           + (4 + min (msg.length - offset) (c.cs_qlength - 4))) % c.cs_qlength
         cs_ntuples := 1 }) := by
  simp only [sq_push_long_tuple, if_neg hnt, sizeofInt, hoff]
  by_cases hbig : msg.length - offset > c.cs_qlength - 4
  · rw [if_pos hbig]
    have hmin : min (msg.length - offset) (c.cs_qlength - 4)
        = c.cs_qlength - 4 := by omega
    rw [hmin]
    rw [QUEUE_WRITE_pair c (natToBytes4 (msg.length - offset))
      ((msg.drop offset).take (c.cs_qlength - 4)) hbuf hw
      (by rw [natToBytes4_length, List.length_take]; omega)]
    refine Prod.ext ?_ ?_
    · simp [hbig]
    · refine ConsState.ext rfl rfl rfl rfl rfl rfl rfl ?_
      show (c.cs_qwritepos + ((natToBytes4 (msg.length - offset)).length
          + ((msg.drop offset).take (c.cs_qlength - 4)).length)) % c.cs_qlength
        = (c.cs_qwritepos + (4 + (c.cs_qlength - 4))) % c.cs_qlength
      rw [natToBytes4_length, List.length_take, List.length_drop]
      congr 2
      omega
  · rw [if_neg hbig]
    have hmin : min (msg.length - offset) (c.cs_qlength - 4)
        = msg.length - offset := by omega
    rw [hmin]
    rw [QUEUE_WRITE_pair c (natToBytes4 (msg.length - offset))
      ((msg.drop offset).take (msg.length - offset)) hbuf hw
      (by rw [natToBytes4_length, List.length_take]; omega)]
    refine Prod.ext ?_ ?_
    · simp [hbig]
    · refine ConsState.ext rfl rfl rfl rfl rfl rfl rfl ?_
      show (c.cs_qwritepos + ((natToBytes4 (msg.length - offset)).length
          + ((msg.drop offset).take (msg.length - offset)).length)) % c.cs_qlength
        = (c.cs_qwritepos + (4 + (msg.length - offset))) % c.cs_qlength
      rw [natToBytes4_length, List.length_take, List.length_drop]
      congr 2
      omega

/-- Tail of one pull iteration: after the producer's continuation push has
left state `S` (remaining-length header plus next chunk on the ring at the
read position), reading the header and recursing returns the rest of the
payload.  `ih` is the induction hypothesis on the remaining fuel. -/
theorem pullLongTuple_tail (msg : List Nat) (h31 : msg.length < 2 ^ 31)
    (fuel : Nat)
    (ih : ∀ (c : ConsState) (acc : List Nat) (offset : Nat),
      4 < c.cs_qlength →
      c.cs_qbuf.length = c.cs_qlength →
      c.cs_qreadpos < c.cs_qlength →
      offset < msg.length →
      msg.length - offset ≤ fuel →
      c.cs_qwritepos = (c.cs_qreadpos
        + min (msg.length - offset) (c.cs_qlength - 4)) % c.cs_qlength →
      readMod c.cs_qbuf c.cs_qreadpos
          (min (msg.length - offset) (c.cs_qlength - 4))
        = (msg.drop offset).take (min (msg.length - offset) (c.cs_qlength - 4)) →
      (pullLongTuple msg fuel c acc offset (msg.length - offset)).1
        = some (acc ++ msg.drop offset))
    (S : ConsState) (acc2 : List Nat) (offset2 : Nat)
    (h4S : 4 < S.cs_qlength)
    (hbS : S.cs_qbuf.length = S.cs_qlength)
    (hrS : S.cs_qreadpos < S.cs_qlength)
    (hoS : offset2 < msg.length)
    (hfS : msg.length - offset2 ≤ fuel)
    (hwS : S.cs_qwritepos = (S.cs_qreadpos
      + (4 + min (msg.length - offset2) (S.cs_qlength - 4))) % S.cs_qlength)
    (hcS : readMod S.cs_qbuf S.cs_qreadpos
        (4 + min (msg.length - offset2) (S.cs_qlength - 4))
      = natToBytes4 (msg.length - offset2)
        ++ (msg.drop offset2).take
            (min (msg.length - offset2) (S.cs_qlength - 4))) :
    (pullLongTuple msg fuel (QUEUE_READ S sizeofInt).2 acc2 offset2
      (bytes4ToNat (QUEUE_READ S sizeofInt).1)).1
    = some (acc2 ++ msg.drop offset2) := by
  rw [show sizeofInt = 4 from rfl]
  rw [QUEUE_READ_norm S 4 hbS hrS (by omega)]
  dsimp only
  rw [readMod_add] at hcS
  have hsp := List.append_inj hcS (by rw [readMod_length, natToBytes4_length])
  rw [hsp.1, bytes4_roundtrip _ (by omega)]
  apply ih
  · exact h4S
  · exact hbS
  · exact Nat.mod_lt _ (by omega)
  · exact hoS
  · exact hfS
  · show S.cs_qwritepos = ((S.cs_qreadpos + 4) % S.cs_qlength
      + min (msg.length - offset2) (S.cs_qlength - 4)) % S.cs_qlength
    rw [Nat.mod_add_mod, hwS]
    congr 1
    omega
  · show readMod S.cs_qbuf ((S.cs_qreadpos + 4) % S.cs_qlength)
        (min (msg.length - offset2) (S.cs_qlength - 4))
      = (msg.drop offset2).take (min (msg.length - offset2) (S.cs_qlength - 4))
    have hres := hsp.2
    rw [readMod_mod, hbS] at hres
    exact hres

theorem pullLongTuple_spec (msg : List Nat) (h31 : msg.length < 2 ^ 31) :
    ∀ (fuel : Nat) (c : ConsState) (acc : List Nat) (offset : Nat),
      4 < c.cs_qlength →
      c.cs_qbuf.length = c.cs_qlength →
      c.cs_qreadpos < c.cs_qlength →
      offset < msg.length →
      msg.length - offset ≤ fuel →
      c.cs_qwritepos = (c.cs_qreadpos
        + min (msg.length - offset) (c.cs_qlength - 4)) % c.cs_qlength →
      readMod c.cs_qbuf c.cs_qreadpos
          (min (msg.length - offset) (c.cs_qlength - 4))
        = (msg.drop offset).take (min (msg.length - offset) (c.cs_qlength - 4)) →
      (pullLongTuple msg fuel c acc offset (msg.length - offset)).1
        = some (acc ++ msg.drop offset) := by
  intro fuel
  induction fuel with
  | zero =>
    intro c acc offset h4 hb hr ho hf hw hc
    omega
  | succ fuel ih =>
    intro c acc offset h4 hb hr ho hf hw hc
    have hLpos : 0 < c.cs_qlength := by omega
    by_cases hbig : msg.length - offset > c.cs_qlength - 4
    case neg =>
      have hmin : min (msg.length - offset) (c.cs_qlength - 4)
          = msg.length - offset := by omega
      rw [hmin] at hw hc
      simp only [pullLongTuple, sizeofInt]
      rw [if_neg hbig, QUEUE_READ_norm c (msg.length - offset) hb hr (by omega)]
      dsimp only
      rw [if_pos (by omega : offset + (msg.length - offset) = msg.length)]
      dsimp only
      rw [hc, List.take_of_length_le (by rw [List.length_drop])]
    case pos =>
      have hmin : min (msg.length - offset) (c.cs_qlength - 4)
          = c.cs_qlength - 4 := by omega
      rw [hmin] at hw hc
      simp only [pullLongTuple, sizeofInt]
      rw [if_pos hbig, QUEUE_READ_norm c (c.cs_qlength - 4) hb hr (by omega)]
      dsimp only
      rw [if_neg (by omega : ¬ offset + (c.cs_qlength - 4) = msg.length)]
      rw [hc]
      have hmem : memcpyAt c.cs_qbuf 0 (natToBytes4 (offset + (c.cs_qlength - 4)))
          = writeMod c.cs_qbuf 0 (natToBytes4 (offset + (c.cs_qlength - 4))) :=
        memcpyAt_eq_writeMod _ _ _ (by rw [natToBytes4_length]; omega)
      rw [hmem]
      set cw : ConsState :=
        { cs_pid := c.cs_pid, cs_node := c.cs_node, cs_ntuples := LONG_TUPLE,
          cs_status := c.cs_status,
          cs_qbuf := writeMod c.cs_qbuf 0
            (natToBytes4 (offset + (c.cs_qlength - 4))),
          cs_qlength := c.cs_qlength,
          cs_qreadpos := (c.cs_qreadpos + (c.cs_qlength - 4)) % c.cs_qlength,
          cs_qwritepos := c.cs_qwritepos } with hcw
      have htake : (writeMod c.cs_qbuf 0
            (natToBytes4 (offset + (c.cs_qlength - 4)))).take 4
          = natToBytes4 (offset + (c.cs_qlength - 4)) := by
        rw [← readMod_zero_take _ 4 (by rw [writeMod_length]; omega)]
        have h5 := readMod_writeMod c.cs_qbuf 0
          (natToBytes4 (offset + (c.cs_qlength - 4)))
          (by rw [natToBytes4_length]; omega)
        rw [natToBytes4_length] at h5
        exact h5
      have hpush := sq_push_long_tuple_cont cw msg (offset + (c.cs_qlength - 4))
        (by rw [hcw]; dsimp only; decide)
        (by rw [hcw]; dsimp only; rw [writeMod_length]; exact hb)
        (by rw [hcw]; dsimp only; rw [hw]; exact Nat.mod_lt _ hLpos)
        (by rw [hcw]; exact h4)
        (by rw [hcw]; dsimp only; rw [htake]
            exact bytes4_roundtrip _ (by omega))
      rw [hpush]
      dsimp only
      have hsplit : acc ++ List.drop offset msg
          = (acc ++ List.take (c.cs_qlength - 4) (List.drop offset msg))
            ++ List.drop (offset + (c.cs_qlength - 4)) msg := by
        rw [List.append_assoc, ← List.drop_drop, List.take_append_drop]
      rw [hsplit]
      apply pullLongTuple_tail msg h31 fuel ih
      · -- ring length of the post-push state
        exact h4
      · -- buffer length
        dsimp only
        rw [writeMod_length, writeMod_length]
        exact hb
      · -- read position in range
        dsimp only
        exact Nat.mod_lt _ hLpos
      · omega
      · omega
      · -- write position sits after header + chunk
        dsimp only
        rw [hw]
      · -- header + chunk are on the ring at the read position
        dsimp only
        rw [hw]
        have h6 := readMod_writeMod
          (writeMod c.cs_qbuf 0 (natToBytes4 (offset + (c.cs_qlength - 4))))
          ((c.cs_qreadpos + (c.cs_qlength - 4)) % c.cs_qlength)
          (natToBytes4 (msg.length - (offset + (c.cs_qlength - 4)))
            ++ (msg.drop (offset + (c.cs_qlength - 4))).take
                (min (msg.length - (offset + (c.cs_qlength - 4)))
                  (c.cs_qlength - 4)))
          (by rw [List.length_append, natToBytes4_length, List.length_take,
                List.length_drop, writeMod_length, hb]
              omega)
        rw [show (natToBytes4 (msg.length - (offset + (c.cs_qlength - 4)))
            ++ (msg.drop (offset + (c.cs_qlength - 4))).take
                (min (msg.length - (offset + (c.cs_qlength - 4)))
                  (c.cs_qlength - 4))).length
          = 4 + min (msg.length - (offset + (c.cs_qlength - 4)))
              (c.cs_qlength - 4) from by
            rw [List.length_append, natToBytes4_length, List.length_take,
              List.length_drop]
            omega] at h6
        exact h6

/-! ## Claim C1: round-trip exactness -/

/-- A freshly formatted consumer slot, as `SharedQueueAcquire` initializes it:
zero pid, unassigned node, zero count/positions, `CONSUMER_ACTIVE`, a zeroed
ring of `qlen` bytes. -/
def initialSlot (qlen : Nat) : ConsState :=
  { cs_pid := 0, cs_node := -1, cs_ntuples := 0, cs_status := CONSUMER_ACTIVE,
    cs_qbuf := List.replicate qlen 0, cs_qlength := qlen,
    cs_qreadpos := 0, cs_qwritepos := 0 }

theorem initialSlot_WF (qlen : Nat) (h : 4 < qlen) :
    WF (initialSlot qlen) [] := by
  refine ⟨h, by simp [initialSlot], by dsimp only [initialSlot]; omega,
    by simp [initialSlot, encodeAll_nil], by simp [encodeAll_nil],
    by simp [initialSlot], rfl, by simp⟩

/-- Round trip of one payload `p` through a freshly formatted consumer slot of
ring size `qlen`: the Write path stores the tuple — a plain ring write when
`QUEUE_FREE_SPACE ≥ sizeof(int) + msglen`, else the first `sq_push_long_tuple`
call that `SharedQueueDump` issues on the empty ring — and the Read path reads
the 4-byte length and either the payload or the interactive long-tuple pull. -/
def roundTrip (qlen : Nat) (p : List Nat) : Option (List Nat) :=
  let c0 := initialSlot qlen
  let c1 := if QUEUE_FREE_SPACE c0 < sizeofInt + p.length
            then (sq_push_long_tuple c0 p).2
            else writeTupleRing c0 p
  let res := SharedQueueReadModel c1 true
  match res.1 with
  | ReadResult.retFalseRow row => some row
  | ReadResult.retFalseLong datalen =>
      (pullLongTuple p p.length res.2.1 [] 0 datalen).1
  | _ => none

/-- Read-back of a long tuple from the state the first push leaves behind:
the read model reports the long-tuple branch and the pull returns the whole
payload. -/
theorem readLong_start (p : List Nat) (hp : p.length < 2 ^ 31) (S : ConsState)
    (h4 : 4 < S.cs_qlength)
    (hnt : S.cs_ntuples = 1)
    (hb : S.cs_qbuf.length = S.cs_qlength)
    (hr : S.cs_qreadpos < S.cs_qlength)
    (hbig : S.cs_qlength - 4 < p.length)
    (hw : S.cs_qwritepos
      = (S.cs_qreadpos + (4 + (S.cs_qlength - 4))) % S.cs_qlength)
    (hc : readMod S.cs_qbuf S.cs_qreadpos (4 + (S.cs_qlength - 4))
      = natToBytes4 p.length ++ p.take (S.cs_qlength - 4)) :
    (SharedQueueReadModel S true).1 = ReadResult.retFalseLong p.length ∧
    (pullLongTuple p p.length (SharedQueueReadModel S true).2.1 [] 0
      p.length).1 = some p := by
  simp only [SharedQueueReadModel, sizeofInt]
  rw [if_neg (show ¬ S.cs_ntuples ≤ 0 by rw [hnt]; decide)]
  rw [QUEUE_READ_norm S 4 hb hr (by omega)]
  dsimp only
  rw [readMod_add] at hc
  have hsp := List.append_inj hc (by rw [readMod_length, natToBytes4_length])
  rw [hsp.1, bytes4_roundtrip _ (by omega)]
  rw [if_pos (by omega : p.length > S.cs_qlength - 4)]
  dsimp only
  refine ⟨rfl, ?_⟩
  have hspec := pullLongTuple_spec p hp p.length
    { S with cs_qreadpos := (S.cs_qreadpos + 4) % S.cs_qlength } [] 0
    h4 hb (Nat.mod_lt _ (by omega)) (by omega) (by omega)
    ?hwgoal ?hcgoal
  case hwgoal =>
    show S.cs_qwritepos = ((S.cs_qreadpos + 4) % S.cs_qlength
      + min (p.length - 0) (S.cs_qlength - 4)) % S.cs_qlength
    rw [Nat.mod_add_mod, hw]
    congr 1
    omega
  case hcgoal =>
    show readMod S.cs_qbuf ((S.cs_qreadpos + 4) % S.cs_qlength)
        (min (p.length - 0) (S.cs_qlength - 4))
      = (p.drop 0).take (min (p.length - 0) (S.cs_qlength - 4))
    have hm : min (p.length - 0) (S.cs_qlength - 4) = S.cs_qlength - 4 := by
      omega
    rw [hm, List.drop_zero]
    have h7 := hsp.2
    rw [readMod_mod, hb] at h7
    exact h7
  exact hspec

/-- C1 (round-trip exactness): for every payload byte sequence `p` —
including payloads longer than `ring_length - 4`, which take the fragmented
long-tuple path — writing `p` to a consumer slot via the Write path and
reading it back via the Read path yields a payload byte-for-byte equal
to `p`.  The hypotheses are the structural bounds of the code: the ring is
large enough to hold a length prefix plus at least one payload byte
(`SQUEUE_SIZE` formatting guarantees far more), and the payload length fits
a positive C `int`. -/
theorem roundTrip_exact (qlen : Nat) (p : List Nat) (hq : 5 ≤ qlen)
    (hp : p.length < 2 ^ 31) :
    roundTrip qlen p = some p := by
  have h4 : 4 < qlen := by omega
  have hWF0 := initialSlot_WF qlen h4
  have hfree0 : QUEUE_FREE_SPACE (initialSlot qlen) = qlen := by
    rw [QUEUE_FREE_SPACE_eq_unused _ [] hWF0]
    simp [initialSlot, encodeAll_nil]
  simp only [roundTrip, sizeofInt]
  rw [hfree0]
  by_cases hbig : qlen < 4 + p.length
  · -- long-tuple path
    rw [if_pos hbig]
    have hpfirst := sq_push_long_tuple_first (initialSlot qlen) p rfl
      (by simp [initialSlot]) (by dsimp only [initialSlot]; omega) h4
    obtain ⟨hA, hB⟩ := readLong_start p hp
      ((sq_push_long_tuple (initialSlot qlen) p).2)
      (by rw [hpfirst]; dsimp only [initialSlot]; omega)
      (by rw [hpfirst])
      (by rw [hpfirst]; dsimp only [initialSlot]
          rw [writeMod_length]; simp)
      (by rw [hpfirst]; dsimp only [initialSlot]; omega)
      (by rw [hpfirst]; dsimp only [initialSlot]; omega)
      (by rw [hpfirst]; dsimp only [initialSlot]
          rw [List.length_take]
          congr 2
          omega)
      (by rw [hpfirst]; dsimp only [initialSlot]
          have h8 := readMod_writeMod (List.replicate qlen 0) 0
            (natToBytes4 p.length ++ p.take (qlen - 4))
            (by rw [List.length_append, natToBytes4_length, List.length_take,
                List.length_replicate]; omega)
          rw [show (natToBytes4 p.length ++ p.take (qlen - 4)).length
              = 4 + (qlen - 4) from by
            rw [List.length_append, natToBytes4_length, List.length_take]
            omega] at h8
          exact h8)
    rw [hA]
    exact hB
  · -- short path
    rw [if_neg hbig]
    have hWF1 := writeTupleRing_WF (initialSlot qlen) [] p hWF0
      (by rw [hfree0]; simp only [sizeofInt]; omega)
      (by dsimp only [initialSlot]; omega) hp
    have hread := SharedQueueReadModel_cons (writeTupleRing (initialSlot qlen) p)
      p [] true hWF1.1
    rw [hread.1]

/-- Witness for `roundTrip_exact`: ring of 8 bytes, 10-byte payload — the
long-tuple path with several pull iterations. -/
theorem roundTrip_exact_witness :
    (5 ≤ 8 ∧ ([0, 1, 2, 3, 4, 5, 6, 7, 8, 9] : List Nat).length < 2 ^ 31) ∧
    roundTrip 8 [0, 1, 2, 3, 4, 5, 6, 7, 8, 9]
      = some [0, 1, 2, 3, 4, 5, 6, 7, 8, 9] :=
  ⟨⟨by decide, by decide⟩,
   roundTrip_exact 8 [0, 1, 2, 3, 4, 5, 6, 7, 8, 9] (by decide) (by decide)⟩

/-! ## The Write path (SharedQueueWrite / SharedQueueDump) -/

/-- The inner loop of `SharedQueueDump`: fetch tuples from the store and
enqueue them while they fit; on a tuple that does not fit, push it through
the long-tuple protocol when the ring is empty (`cs_ntuples <= 0`, and keep
going if the push completed), else roll the advancing read pointer back and
stop.  Returns the dump result flag, the updated slot, and the store contents
that remain after the trim. -/
def dumpLoop (c : ConsState) :
    List (List Nat) → Bool × ConsState × List (List Nat)
  | [] => (true, c, [])
  | t :: ts =>
    if QUEUE_FREE_SPACE c < sizeofInt + t.length then
      if c.cs_ntuples ≤ 0 then
        let push := sq_push_long_tuple c t
        if push.1 then dumpLoop push.2 ts
        else (false, push.2, t :: ts)
      else (false, c, t :: ts)
    else dumpLoop (writeTupleRing c t) ts

/-- The `SharedQueueDump`: clear and discard the whole store if the consumer is
not `CONSUMER_ACTIVE`, else run the transfer loop. -/
def SharedQueueDump (c : ConsState) (ts : List (List Nat)) :
    Bool × ConsState × List (List Nat) :=
  if c.cs_status ≠ CONSUMER_ACTIVE then (true, c, [])
  else dumpLoop c ts

/-- Producer-side state for one consumer slot: the shared `ConsState` plus
the producer-local tuplestore (`none` = `*tuplestore == NULL`). -/
structure ProdState where
  cons : ConsState
  store : Option (List (List Nat))
  deriving Repr, DecidableEq

/-- The tail of `SharedQueueWrite` after the opportunistic dump: spill to the
store when the ring lacks room (creating the store when there is none), else
write to the ring — but only for an `ACTIVE` consumer; a non-`ACTIVE`
consumer's tuple is dropped ("no need to supply data"). -/
def writeOrSpill (s : ProdState) (t : List Nat) : ProdState :=
  if QUEUE_FREE_SPACE s.cons < sizeofInt + t.length then
    { s with store := some (s.store.getD [] ++ [t]) }
  else if s.cons.cs_status = CONSUMER_ACTIVE then
    { s with cons := writeTupleRing s.cons t }
  else s

/-- The `SharedQueueWrite`: when a store exists, first try to dump it if the ring
is more than half free; if the store was not emptied the tuple is appended to
it, otherwise control falls through to the ring-write / spill / discard
dispatch. -/
def SharedQueueWrite (s : ProdState) (t : List Nat) : ProdState :=
  match s.store with
  | some ts =>
    let dumped :=
      if QUEUE_FREE_SPACE s.cons > s.cons.cs_qlength / 2 then
        SharedQueueDump s.cons ts
      else (false, s.cons, ts)
    if dumped.1 then
      writeOrSpill { cons := dumped.2.1, store := some dumped.2.2 } t
    else
      { cons := dumped.2.1, store := some (dumped.2.2 ++ [t]) }
  | none => writeOrSpill s t

/-- One operation on a slot: a producer `SharedQueueWrite` of one tuple, or a
consumer `SharedQueueRead` with `canwait = false`. -/
inductive SQOp where
  | write (t : List Nat)
  | read
  deriving Repr, DecidableEq

/-- Run a sequence of operations against a slot, collecting read rows. -/
def runOps (s : ProdState) (outs : List (List Nat)) :
    List SQOp → ProdState × List (List Nat)
  | [] => (s, outs)
  | SQOp.write t :: ops => runOps (SharedQueueWrite s t) outs ops
  | SQOp.read :: ops =>
    let res := SharedQueueReadModel s.cons false
    match res.1 with
    | ReadResult.retFalseRow row =>
        runOps { s with cons := res.2.1 } (outs ++ [row]) ops
    | _ => runOps { s with cons := res.2.1 } outs ops

/-- The tuples a sequence of operations writes, in order. -/
def writtenTuples : List SQOp → List (List Nat)
  | [] => []
  | SQOp.write t :: ops => t :: writtenTuples ops
  | SQOp.read :: ops => writtenTuples ops

/-- Abstraction relation for the producer state: the pending tuples are the
ring contents followed by the store contents, the slot is well formed and
`ACTIVE`, and the stored tuples satisfy the per-tuple bounds. -/
def StoreInv (s : ProdState) (pending : List (List Nat)) : Prop :=
  ∃ rts, WF s.cons rts ∧ pending = rts ++ s.store.getD []
    ∧ s.cons.cs_status = CONSUMER_ACTIVE
    ∧ ∀ t ∈ s.store.getD [],
        t.length ≤ s.cons.cs_qlength - 4 ∧ t.length < 2 ^ 31

/-- The `dumpLoop` transfers a prefix of the store to the ring, in order; with the
fit bounds in force the long-tuple branch is unreachable (an empty ring always
has room).  The flag is `true` only when the store was exhausted. -/
theorem dumpLoop_spec (ts : List (List Nat)) :
    ∀ (c : ConsState) (rts : List (List Nat)),
      WF c rts →
      (∀ t ∈ ts, t.length ≤ c.cs_qlength - 4 ∧ t.length < 2 ^ 31) →
      ∃ k, WF (dumpLoop c ts).2.1 (rts ++ ts.take k) ∧
        (dumpLoop c ts).2.2 = ts.drop k ∧
        ((dumpLoop c ts).1 = true → ts.drop k = []) ∧
        (dumpLoop c ts).2.1.cs_status = c.cs_status ∧
        (dumpLoop c ts).2.1.cs_qlength = c.cs_qlength := by
  induction ts with
  | nil =>
    intro c rts h hfit
    refine ⟨0, ?_, rfl, fun _ => rfl, rfl, rfl⟩
    show WF c (rts ++ [])
    rw [List.append_nil]
    exact h
  | cons t ts ih =>
    intro c rts h hfit
    have hfitt := hfit t (by simp)
    by_cases hfree : QUEUE_FREE_SPACE c < sizeofInt + t.length
    · -- the tuple does not fit; with the bounds the ring cannot be empty
      have hnt : ¬ c.cs_ntuples ≤ 0 := by
        intro hle
        have hnth := h.hnt
        have hnt0 : rts.length = 0 := by omega
        have hrts : rts = [] := List.eq_nil_of_length_eq_zero hnt0
        subst hrts
        have hfr := QUEUE_FREE_SPACE_eq_unused c [] h
        rw [encodeAll_nil] at hfr
        simp only [List.length_nil, Nat.sub_zero] at hfr
        have h4 := h.hfour
        simp only [sizeofInt] at hfree
        omega
      rw [dumpLoop, if_pos hfree, if_neg hnt]
      refine ⟨0, ?_, rfl, ?_, rfl, rfl⟩
      · show WF c (rts ++ [])
        rw [List.append_nil]
        exact h
      · intro hcontra
        simp at hcontra
    · -- the tuple fits: enqueue it and continue
      rw [dumpLoop, if_neg hfree]
      have hwf := writeTupleRing_WF c rts t h
        (by simp only [sizeofInt] at hfree ⊢; omega) hfitt.1 hfitt.2
      obtain ⟨k, hk1, hk2, hk3, hk4, hk5⟩ := ih (writeTupleRing c t)
        (rts ++ [t]) hwf.1
        (by intro u hu
            rw [hwf.2.2.1]
            exact hfit u (by simp [hu]))
      refine ⟨k + 1, ?_, hk2, hk3, ?_, ?_⟩
      · simpa [List.append_assoc] using hk1
      · rw [hk4, hwf.2.1]
      · rw [hk5, hwf.2.2.1]

/-- The post-dump tail of the write path preserves the abstraction, appending
the tuple; it is entered only with an empty (or absent) store. -/
theorem writeOrSpill_inv (s : ProdState) (pending : List (List Nat))
    (t : List Nat) (h : StoreInv s pending)
    (hemp : s.store.getD [] = [])
    (ht : t.length ≤ s.cons.cs_qlength - 4 ∧ t.length < 2 ^ 31) :
    StoreInv (writeOrSpill s t) (pending ++ [t]) ∧
    (writeOrSpill s t).cons.cs_qlength = s.cons.cs_qlength := by
  obtain ⟨rts, hWF, hpend, hact, hsf⟩ := h
  by_cases hfree : QUEUE_FREE_SPACE s.cons < sizeofInt + t.length
  · rw [writeOrSpill, if_pos hfree]
    refine ⟨⟨rts, hWF, ?_, hact, ?_⟩, rfl⟩
    · dsimp only
      rw [hpend, hemp]
      simp
    · dsimp only
      intro u hu
      rw [hemp] at hu
      simp only [Option.getD_some, List.nil_append, List.mem_singleton] at hu
      subst hu
      exact ht
  · rw [writeOrSpill, if_neg hfree, if_pos hact]
    have hwf := writeTupleRing_WF s.cons rts t hWF
      (by simp only [sizeofInt] at hfree ⊢; omega) ht.1 ht.2
    refine ⟨⟨rts ++ [t], hwf.1, ?_, by dsimp only; rw [hwf.2.1]; exact hact,
      ?_⟩, hwf.2.2.1⟩
    · dsimp only
      rw [hpend, hemp]
      simp
    · dsimp only
      rw [hemp]
      simp

/-- Write step: `SharedQueueWrite` on an `ACTIVE` slot appends the tuple
to the pending sequence (ring followed by store) and keeps the ring length. -/
theorem SharedQueueWrite_inv (s : ProdState) (pending : List (List Nat))
    (t : List Nat) (h : StoreInv s pending)
    (ht : t.length ≤ s.cons.cs_qlength - 4 ∧ t.length < 2 ^ 31) :
    StoreInv (SharedQueueWrite s t) (pending ++ [t]) ∧
    (SharedQueueWrite s t).cons.cs_qlength = s.cons.cs_qlength := by
  obtain ⟨rts, hWF, hpend, hact, hsf⟩ := h
  cases hstore : s.store with
  | none =>
    simp only [SharedQueueWrite, hstore]
    exact writeOrSpill_inv s pending t ⟨rts, hWF, hpend, hact, hsf⟩
      (by rw [hstore]; rfl) ht
  | some sts =>
    simp only [SharedQueueWrite, hstore]
    by_cases hhalf : QUEUE_FREE_SPACE s.cons > s.cons.cs_qlength / 2
    · rw [if_pos hhalf]
      have hdump : SharedQueueDump s.cons sts = dumpLoop s.cons sts := by
        rw [SharedQueueDump, if_neg (by simp [hact])]
      rw [hdump]
      obtain ⟨k, hk1, hk2, hk3, hk4, hk5⟩ := dumpLoop_spec sts s.cons rts hWF
        (by intro u hu
            have := hsf u (by rw [hstore]; exact hu)
            exact this)
      by_cases hflag : (dumpLoop s.cons sts).1 = true
      · rw [if_pos hflag]
        have hkall : sts.drop k = [] := hk3 hflag
        have htake : sts.take k = sts := by
          have hlen := congrArg List.length hkall
          rw [List.length_drop] at hlen
          exact List.take_of_length_le (by simp at hlen; omega)
        have hinv2 : StoreInv
            ⟨(dumpLoop s.cons sts).2.1, some (dumpLoop s.cons sts).2.2⟩
            pending := by
          refine ⟨rts ++ sts.take k, hk1, ?_, by dsimp only; rw [hk4]; exact hact,
            ?_⟩
          · dsimp only [Option.getD]
            rw [hk2, hkall, List.append_nil, hpend, hstore, htake]
            rfl
          · dsimp only [Option.getD]
            rw [hk2, hkall]
            simp
        have hres := writeOrSpill_inv
          ⟨(dumpLoop s.cons sts).2.1, some (dumpLoop s.cons sts).2.2⟩
          pending t hinv2
          (by dsimp only [Option.getD]; rw [hk2, hkall])
          (by dsimp only; rw [hk5]; exact ht)
        refine ⟨hres.1, ?_⟩
        rw [hres.2]
        exact hk5
      · rw [if_neg hflag]
        refine ⟨⟨rts ++ sts.take k, hk1, ?_,
          by dsimp only; rw [hk4]; exact hact, ?_⟩, hk5⟩
        · dsimp only [Option.getD]
          rw [hk2, hpend, hstore]
          dsimp only [Option.getD]
          conv_lhs => rw [← List.take_append_drop k sts]
          simp only [List.append_assoc]
        · dsimp only [Option.getD]
          intro u hu
          rw [hk2] at hu
          rw [hk5]
          rcases List.mem_append.mp hu with h1 | h1
          · exact hsf u (by rw [hstore]; exact List.mem_of_mem_drop h1)
          · rw [List.mem_singleton] at h1
            subst h1
            exact ht
    · rw [if_neg hhalf, if_neg (by simp)]
      refine ⟨⟨rts, hWF, ?_, hact, ?_⟩, rfl⟩
      · dsimp only [Option.getD]
        rw [hpend, hstore]
        dsimp only [Option.getD]
        rw [List.append_assoc]
      · dsimp only [Option.getD]
        intro u hu
        rcases List.mem_append.mp hu with h1 | h1
        · exact hsf u (by rw [hstore]; exact h1)
        · rw [List.mem_singleton] at h1
          subst h1
          exact ht

/-- Invariant preservation along any operation sequence: the rows read so far
followed by the pending tuples equal the initial backlog plus everything
written, in order. -/
theorem runOps_inv (ops : List SQOp) :
    ∀ (s : ProdState) (outs pending : List (List Nat)),
      StoreInv s pending →
      (∀ t, SQOp.write t ∈ ops →
        t.length ≤ s.cons.cs_qlength - 4 ∧ t.length < 2 ^ 31) →
      ∃ pending', StoreInv (runOps s outs ops).1 pending' ∧
        (runOps s outs ops).2 ++ pending'
          = (outs ++ pending) ++ writtenTuples ops := by
  induction ops with
  | nil =>
    intro s outs pending h hfit
    exact ⟨pending, h, by simp [runOps, writtenTuples]⟩
  | cons op ops ih =>
    intro s outs pending h hfit
    cases op with
    | write t =>
      simp only [runOps]
      have hstep := SharedQueueWrite_inv s pending t h (hfit t (by simp))
      obtain ⟨pending', hp1, hp2⟩ := ih (SharedQueueWrite s t) outs
        (pending ++ [t]) hstep.1
        (by intro u hu
            rw [hstep.2]
            exact hfit u (by simp [hu]))
      refine ⟨pending', hp1, ?_⟩
      rw [hp2]
      simp [writtenTuples, List.append_assoc]
    | read =>
      obtain ⟨rts, hWF, hpend, hact, hsf⟩ := h
      cases rts with
      | nil =>
        have hread : SharedQueueReadModel s.cons false
            = (ReadResult.retFalseEmpty, s.cons,
               [SideEffect.releaseConsumerLock, SideEffect.releaseProducerLock,
                SideEffect.clearSlot]) := by
          rw [SharedQueueReadModel, if_pos (by rw [hWF.hnt]; simp),
            if_neg (show ¬ s.cons.cs_status = CONSUMER_EOF by
              rw [hact]; decide),
            if_neg (show ¬ s.cons.cs_status = CONSUMER_ERROR by
              rw [hact]; decide),
            if_neg (show ¬ false = true by decide)]
        simp only [runOps, hread]
        obtain ⟨pending', hp1, hp2⟩ := ih s outs pending
          ⟨[], hWF, hpend, hact, hsf⟩
          (by intro u hu
              exact hfit u (by simp [hu]))
        refine ⟨pending', hp1, ?_⟩
        rw [hp2]
        simp [writtenTuples]
      | cons t rts' =>
        have hread := SharedQueueReadModel_cons s.cons t rts' false hWF
        simp only [runOps]
        rw [hread.1]
        obtain ⟨pending', hp1, hp2⟩ := ih
          { s with cons := (SharedQueueReadModel s.cons false).2.1 }
          (outs ++ [t]) (rts' ++ s.store.getD [])
          ⟨rts', hread.2.1, rfl,
            by dsimp only; rw [hread.2.2.1]; exact hact,
            by dsimp only
               intro u hu
               rw [hread.2.2.2.1]
               exact hsf u hu⟩
          (by intro u hu
              dsimp only
              rw [hread.2.2.2.1]
              exact hfit u (by simp [hu]))
        refine ⟨pending', hp1, ?_⟩
        rw [hp2]
        rw [hpend]
        simp [writtenTuples, List.append_assoc]

/-- C2 (FIFO per consumer): starting from a freshly formatted slot, for
every interleaving of producer Writes and consumer Reads, the rows returned
by the Reads, followed by the tuples still pending (first those in the ring,
then those in the producer-local overflow store), are exactly the written
tuples in emission order — no tuple is dropped, duplicated, or reordered,
whether it went straight to the ring or was spilled to the store and dumped
later.  The hypotheses are the regime of the claim: each tuple record fits a
ring (length `≤ ring_length - 4`) and its length fits a positive C `int`. -/
theorem fifo_per_consumer (qlen : Nat) (ops : List SQOp) (hq : 5 ≤ qlen)
    (hfit : ∀ t, SQOp.write t ∈ ops →
      t.length ≤ qlen - 4 ∧ t.length < 2 ^ 31) :
    ∃ pending,
      (runOps ⟨initialSlot qlen, none⟩ [] ops).2 ++ pending
        = writtenTuples ops ∧
      StoreInv (runOps ⟨initialSlot qlen, none⟩ [] ops).1 pending := by
  have h0 : StoreInv ⟨initialSlot qlen, none⟩ [] :=
    ⟨[], initialSlot_WF qlen (by omega), rfl, rfl, by simp⟩
  obtain ⟨pending, hp1, hp2⟩ := runOps_inv ops ⟨initialSlot qlen, none⟩ [] []
    h0 (by intro u hu; exact hfit u hu)
  exact ⟨pending, by simpa using hp2, hp1⟩

/-- Witness for `fifo_per_consumer`: ring of 8 bytes; the second write spills
to the overflow store (the first record occupies 6 of 8 bytes), later reads
drain both in order. -/
theorem fifo_per_consumer_witness :
    (5 ≤ 8 ∧ ∀ t, SQOp.write t ∈
        [SQOp.write [1, 2], SQOp.write [3], SQOp.read, SQOp.write [4],
         SQOp.read, SQOp.read] →
      t.length ≤ 8 - 4 ∧ t.length < 2 ^ 31) ∧
    ∃ pending,
      (runOps ⟨initialSlot 8, none⟩ []
        [SQOp.write [1, 2], SQOp.write [3], SQOp.read, SQOp.write [4],
         SQOp.read, SQOp.read]).2 ++ pending
        = writtenTuples
          [SQOp.write [1, 2], SQOp.write [3], SQOp.read, SQOp.write [4],
           SQOp.read, SQOp.read] ∧
      StoreInv (runOps ⟨initialSlot 8, none⟩ []
        [SQOp.write [1, 2], SQOp.write [3], SQOp.read, SQOp.write [4],
         SQOp.read, SQOp.read]).1 pending := by
  refine ⟨⟨by decide, ?_⟩, ?_⟩
  · intro t ht
    simp only [List.mem_cons, List.not_mem_nil, or_false] at ht
    rcases ht with h | h | h | h | h | h <;>
      first
        | (injection h with h; subst h; decide)
        | exact SQOp.noConfusion h
  · apply fifo_per_consumer 8 _ (by decide)
    intro t ht
    simp only [List.mem_cons, List.not_mem_nil, or_false] at ht
    rcases ht with h | h | h | h | h | h <;>
      first
        | (injection h with h; subst h; decide)
        | exact SQOp.noConfusion h

/-- C3 amended: the free-space computation returns `ring_length` whenever
`cs_ntuples ≤ 0` — that includes `ntuples == 0` *and* the long-tuple sentinel
`LONG_TUPLE = -42`, which the claim's "otherwise" clause misses — and
`(read_pos − write_pos) mod ring_length` when `ntuples > 0`; and under the
ring representation invariant it equals `ring_length` minus the bytes of all
queued tuple records, 4-byte length prefixes included. -/
theorem QUEUE_FREE_SPACE_spec :
    (∀ c : ConsState, c.cs_ntuples ≤ 0 → QUEUE_FREE_SPACE c = c.cs_qlength) ∧
    (∀ c : ConsState, 0 < c.cs_ntuples →
      c.cs_qreadpos < c.cs_qlength → c.cs_qwritepos < c.cs_qlength →
      (QUEUE_FREE_SPACE c : Int)
        = ((c.cs_qreadpos : Int) - c.cs_qwritepos) % (c.cs_qlength : Int)) ∧
    (∀ (c : ConsState) (ts : List (List Nat)), WF c ts →
      QUEUE_FREE_SPACE c = c.cs_qlength - (encodeAll ts).length) := by
  refine ⟨?_, ?_, fun c ts h => QUEUE_FREE_SPACE_eq_unused c ts h⟩
  · intro c hle
    rw [QUEUE_FREE_SPACE, if_neg (by omega)]
  · intro c hpos hr hw
    rw [QUEUE_FREE_SPACE, if_pos hpos]
    by_cases hge : c.cs_qreadpos ≥ c.cs_qwritepos
    · rw [if_pos hge]
      rw [Int.emod_eq_of_lt (by omega) (by omega)]
      omega
    · rw [if_neg hge]
      have hL : ((c.cs_qreadpos : Int) - c.cs_qwritepos) % c.cs_qlength
          = ((c.cs_qreadpos : Int) - c.cs_qwritepos + c.cs_qlength)
            % c.cs_qlength := by
        simp [Int.add_mul_emod_self_left]
      rw [hL, Int.emod_eq_of_lt (by omega) (by omega)]
      omega

/-- C3 counterexample: a slot in long-tuple mode
(`cs_ntuples = LONG_TUPLE = -42 ≠ 0`, reached mid-pull) where the macro
returns `ring_length = 8` while `(read_pos − write_pos) mod ring_length = 4`,
refuting the claim's "otherwise returns `(read_pos − write_pos) mod
ring_length`" for nonzero `ntuples`. -/
theorem QUEUE_FREE_SPACE_long_counterexample :
    (ConsState.mk 0 (-1) LONG_TUPLE CONSUMER_ACTIVE
        (List.replicate 8 0) 8 0 4).cs_ntuples ≠ 0 ∧
    QUEUE_FREE_SPACE (ConsState.mk 0 (-1) LONG_TUPLE CONSUMER_ACTIVE
        (List.replicate 8 0) 8 0 4) = 8 ∧
    (((0 : Int) - 4) % 8 : Int) = 4 ∧ (8 : Nat) ≠ 4 := by
  refine ⟨by decide, ?_, by decide, by decide⟩
  rw [QUEUE_FREE_SPACE, if_neg (by decide)]

/-- The representation invariant decides the empty/full aliasing of
`read_pos == write_pos`. -/
theorem WF_positions (c : ConsState) (ts : List (List Nat)) (h : WF c ts) :
    (c.cs_ntuples = 0 → c.cs_qreadpos = c.cs_qwritepos) ∧
    (c.cs_qreadpos = c.cs_qwritepos →
      c.cs_ntuples = 0 ∨ QUEUE_FREE_SPACE c = 0) := by
  have hLpos : 0 < c.cs_qlength := by have := h.hfour; omega
  constructor
  · intro h0
    have hnt := h.hnt
    have hts : ts.length = 0 := by omega
    have hts' : ts = [] := List.eq_nil_of_length_eq_zero hts
    subst hts'
    rw [h.hw, encodeAll_nil]
    simp [Nat.mod_eq_of_lt h.hr]
  · intro heq
    have hmod : (encodeAll ts).length % c.cs_qlength = 0 := by
      have hm : c.cs_qreadpos + (encodeAll ts).length
          ≡ c.cs_qreadpos + 0 [MOD c.cs_qlength] := by
        show (c.cs_qreadpos + (encodeAll ts).length) % c.cs_qlength
          = (c.cs_qreadpos + 0) % c.cs_qlength
        rw [Nat.add_zero, Nat.mod_eq_of_lt h.hr, ← h.hw]
        exact heq.symm
      have := Nat.ModEq.add_left_cancel' c.cs_qreadpos hm
      have hz : (encodeAll ts).length % c.cs_qlength = 0 % c.cs_qlength := this
      rwa [Nat.zero_mod] at hz
    rcases Nat.eq_zero_or_pos (encodeAll ts).length with hzero | hposl
    · left
      cases ts with
      | nil => rw [h.hnt]; rfl
      | cons t ts' =>
        rw [encodeAll_cons, List.length_append, encodeRec_length] at hzero
        omega
    · right
      have hdvd := Nat.dvd_of_mod_eq_zero hmod
      have hge := Nat.le_of_dvd hposl hdvd
      have htot := h.htot
      have htoteq : (encodeAll ts).length = c.cs_qlength := by omega
      rw [QUEUE_FREE_SPACE_eq_unused c ts h, htoteq]
      omega

/-- C4 amended: after every queue operation from a fresh slot (Writes,
Dumps inside Writes, and non-waiting Reads), `cs_ntuples == 0` implies
`read_pos == write_pos`; the converse holds *except* when the ring is
completely full (`used bytes = ring_length`, whence free space 0 with
`ntuples > 0`) — an exception the claim misses alongside the stated
long-tuple one. -/
theorem ntuples_zero_positions (qlen : Nat) (ops : List SQOp) (hq : 5 ≤ qlen)
    (hfit : ∀ t, SQOp.write t ∈ ops →
      t.length ≤ qlen - 4 ∧ t.length < 2 ^ 31) :
    ((runOps ⟨initialSlot qlen, none⟩ [] ops).1.cons.cs_ntuples = 0 →
      (runOps ⟨initialSlot qlen, none⟩ [] ops).1.cons.cs_qreadpos
        = (runOps ⟨initialSlot qlen, none⟩ [] ops).1.cons.cs_qwritepos) ∧
    ((runOps ⟨initialSlot qlen, none⟩ [] ops).1.cons.cs_qreadpos
        = (runOps ⟨initialSlot qlen, none⟩ [] ops).1.cons.cs_qwritepos →
      (runOps ⟨initialSlot qlen, none⟩ [] ops).1.cons.cs_ntuples = 0 ∨
      QUEUE_FREE_SPACE (runOps ⟨initialSlot qlen, none⟩ [] ops).1.cons = 0) := by
  obtain ⟨pending, hout, hinv⟩ := fifo_per_consumer qlen ops hq hfit
  obtain ⟨rts, hWF, _, _, _⟩ := hinv
  exact WF_positions _ rts hWF

/-- C4 counterexample: writing one 4-byte tuple to a fresh 8-byte ring
fills it exactly; afterwards `read_pos == write_pos` while `cs_ntuples = 1`
(and not `LONG_TUPLE`), refuting `ntuples == 0 ⇔ read_pos == write_pos`. -/
theorem ntuples_zero_positions_counterexample :
    (runOps ⟨initialSlot 8, none⟩ [] [SQOp.write [1, 2, 3, 4]]).1.cons.cs_qreadpos
      = (runOps ⟨initialSlot 8, none⟩ []
          [SQOp.write [1, 2, 3, 4]]).1.cons.cs_qwritepos ∧
    (runOps ⟨initialSlot 8, none⟩ []
        [SQOp.write [1, 2, 3, 4]]).1.cons.cs_ntuples ≠ 0 ∧
    (runOps ⟨initialSlot 8, none⟩ []
        [SQOp.write [1, 2, 3, 4]]).1.cons.cs_ntuples ≠ LONG_TUPLE := by
  decide

/-- C5 amended: a `SharedQueueWrite` to a non-`ACTIVE` consumer never
touches the ring (the slot's `ConsState` is unchanged), and the tuple is
silently discarded *only when the ring has room*: with no overflow store and
enough free space the whole state is unchanged; but with insufficient free
space the tuple *is* appended to the overflow store (created if absent), and
with an existing store that cannot be dumped the tuple is appended behind it —
contradicting the claim's "neither written to the ring nor appended to the
overflow store". -/
theorem SharedQueueWrite_inactive (s : ProdState) (t : List Nat)
    (h : s.cons.cs_status ≠ CONSUMER_ACTIVE) :
    (SharedQueueWrite s t).cons = s.cons ∧
    (s.store = none → ¬ QUEUE_FREE_SPACE s.cons < sizeofInt + t.length →
      SharedQueueWrite s t = s) ∧
    (s.store = none → QUEUE_FREE_SPACE s.cons < sizeofInt + t.length →
      (SharedQueueWrite s t).store = some [t]) ∧
    (∀ ts, s.store = some ts →
      ¬ QUEUE_FREE_SPACE s.cons > s.cons.cs_qlength / 2 →
      (SharedQueueWrite s t).store = some (ts ++ [t])) ∧
    (∀ ts, s.store = some ts →
      QUEUE_FREE_SPACE s.cons > s.cons.cs_qlength / 2 →
      (SharedQueueWrite s t).store =
        some (if QUEUE_FREE_SPACE s.cons < sizeofInt + t.length
              then [t] else [])) := by
  have hwos : ∀ st : Option (List (List Nat)),
      (writeOrSpill { cons := s.cons, store := st } t).cons = s.cons ∧
      (writeOrSpill { cons := s.cons, store := st } t).store =
        if QUEUE_FREE_SPACE s.cons < sizeofInt + t.length
        then some (st.getD [] ++ [t]) else st := by
    intro st
    rw [writeOrSpill]
    by_cases hfree : QUEUE_FREE_SPACE s.cons < sizeofInt + t.length
    · rw [if_pos hfree, if_pos hfree]
      exact ⟨rfl, rfl⟩
    · rw [if_neg hfree, if_neg hfree, if_neg h]
      exact ⟨rfl, rfl⟩
  cases hs : s.store with
  | none =>
    have hW : SharedQueueWrite s t = writeOrSpill s t := by
      rw [SharedQueueWrite, hs]
    have hs' : s = { cons := s.cons, store := none } := by
      cases s with
      | mk c st => dsimp only at hs ⊢; rw [hs]
    obtain ⟨hc, hst⟩ := hwos none
    refine ⟨?_, ?_, ?_, ?_, ?_⟩
    · rw [hW, hs']; exact hc
    · intro _ hfree
      rw [hW, hs', writeOrSpill, if_neg hfree, if_neg h]
    · intro _ hfree
      rw [hW, hs']
      rw [if_pos hfree] at hst
      simpa using hst
    · intro ts hts _; exact Option.noConfusion hts
    · intro ts hts _; exact Option.noConfusion hts
  | some ts =>
    have hdump : SharedQueueDump s.cons ts = (true, s.cons, []) := by
      rw [SharedQueueDump, if_pos h]
    by_cases hhalf : QUEUE_FREE_SPACE s.cons > s.cons.cs_qlength / 2
    · have hW : SharedQueueWrite s t
          = writeOrSpill { cons := s.cons, store := some [] } t := by
        rw [SharedQueueWrite, hs]
        dsimp only
        rw [if_pos hhalf, hdump]
        dsimp only
        rw [if_pos rfl]
      obtain ⟨hc, hst⟩ := hwos (some [])
      refine ⟨by rw [hW]; exact hc, ?_, ?_, ?_, ?_⟩
      · intro hn _; exact Option.noConfusion hn
      · intro hn _; exact Option.noConfusion hn
      · intro ts' hts' hcontra; exact absurd hhalf hcontra
      · intro ts' hts' _
        rw [hW, hst]
        by_cases hfree : QUEUE_FREE_SPACE s.cons < sizeofInt + t.length
        · rw [if_pos hfree, if_pos hfree]; simp
        · rw [if_neg hfree, if_neg hfree]
    · have hW : SharedQueueWrite s t
          = { cons := s.cons, store := some (ts ++ [t]) } := by
        rw [SharedQueueWrite, hs]
        dsimp only
        rw [if_neg hhalf]
        dsimp only
        rw [if_neg (by simp)]
      refine ⟨by rw [hW], ?_, ?_, ?_, ?_⟩
      · intro hn _; exact Option.noConfusion hn
      · intro hn _; exact Option.noConfusion hn
      · intro ts' hts' _
        obtain rfl : ts = ts' := by injection hts'
        rw [hW]
      · intro ts' hts' hcontra; exact absurd hcontra hhalf

/-- C5 witness: for a drained slot in `EOF` state with an empty ring and
no store, writing a 1-byte tuple leaves the whole producer state unchanged —
the genuine silent-discard case of the amended statement. -/
theorem SharedQueueWrite_inactive_witness :
    (ConsState.mk 0 (-1) 0 CONSUMER_EOF (List.replicate 8 0) 8 0 0).cs_status
      ≠ CONSUMER_ACTIVE ∧
    SharedQueueWrite
      ⟨ConsState.mk 0 (-1) 0 CONSUMER_EOF (List.replicate 8 0) 8 0 0, none⟩
      [7]
    = ⟨ConsState.mk 0 (-1) 0 CONSUMER_EOF (List.replicate 8 0) 8 0 0, none⟩ :=
  ⟨by decide,
    (SharedQueueWrite_inactive
      ⟨ConsState.mk 0 (-1) 0 CONSUMER_EOF (List.replicate 8 0) 8 0 0, none⟩
      [7] (by decide)).2.1 rfl (by decide)⟩

/-- C5 counterexample: a `SharedQueueWrite` of tuple `[7]` to an `EOF`
consumer whose ring has only 3 free bytes (needs `4 + 1`) appends the tuple
to the overflow store instead of discarding it, refuting "it is neither
written to the ring nor appended to the overflow store". -/
theorem SharedQueueWrite_inactive_counterexample :
    (ConsState.mk 0 (-1) 1 CONSUMER_EOF [1, 0, 0, 0, 9, 0, 0, 0] 8 0 5).cs_status
      ≠ CONSUMER_ACTIVE ∧
    (SharedQueueWrite
      ⟨ConsState.mk 0 (-1) 1 CONSUMER_EOF [1, 0, 0, 0, 9, 0, 0, 0] 8 0 5,
        none⟩ [7]).store = some [[7]] := by
  decide

/-- Sleep length of one Acquire retry: `pg_usleep(1000000L)` — 1 000 000
microseconds, i.e. one full second. -/
def sleepMicros : Nat := 1000000

/-- The staleness test of `SharedQueueAcquire` on an existing entry: the
entry is a stale leftover when the producer is still bound (`sq_pid != 0`)
and the first consumer slot belonging to this caller's node — the loop
breaks at the first `cs_node` match — is `CONSUMER_DONE`, or no slot belongs
to this node at all (`old_squeue` stays `true`). -/
def squeueIsStale (sq_pid : Int) (consumers : List ConsState)
    (parentId : Int) : Bool :=
  sq_pid != 0 &&
    (match consumers.find? (fun c => c.cs_node == parentId) with
     | some c => c.cs_status == CONSUMER_DONE
     | none => true)

/-- The `tryagain` retry loop of `SharedQueueAcquire`, abstracted over a
per-attempt staleness oracle.  Attempt `trycount`: if not stale, succeed;
else sleep `sleepMicros`, increment `trycount`, and fail once it reaches 10.
The fuel equals `10 - trycount`, so the `0` case is unreachable from the
entry point. -/
def acquireLoop (stale : Nat → Bool) :
    Nat → Nat → List Nat → Bool × List Nat
  | 0, _, sleeps => (false, sleeps)
  | fuel + 1, trycount, sleeps =>
    if stale trycount then
      let sleeps' := sleeps ++ [sleepMicros]
      if trycount + 1 ≥ 10 then (false, sleeps')
      else acquireLoop stale fuel (trycount + 1) sleeps'
    else (true, sleeps)

/-- `SharedQueueAcquire` retry behaviour from the first attempt: result flag
(`false` = `elog(ERROR)` after exhausting the tries) and the list of sleeps
performed, each entry the microseconds slept. -/
def SharedQueueAcquireRetry (stale : Nat → Bool) : Bool × List Nat :=
  acquireLoop stale 10 0 []

/-- Success case of the retry loop, by fuel induction. -/
theorem acquireLoop_success (stale : Nat → Bool) :
    ∀ (fuel t : Nat) (sleeps : List Nat) (k : Nat), k < fuel →
      t + fuel = 10 →
      (∀ j, t ≤ j → j < t + k → stale j = true) → stale (t + k) = false →
      acquireLoop stale fuel t sleeps
        = (true, sleeps ++ List.replicate k sleepMicros) := by
  intro fuel
  induction fuel with
  | zero => intro t sleeps k hk; omega
  | succ f ih =>
    intro t sleeps k hk ht hstale hstop
    rw [acquireLoop]
    cases k with
    | zero =>
      rw [Nat.add_zero] at hstop
      rw [if_neg (by rw [hstop]; exact Bool.false_ne_true)]
      simp
    | succ k' =>
      have hst : stale t = true := hstale t le_rfl (by omega)
      rw [if_pos hst, if_neg (by omega)]
      have := ih (t + 1) (sleeps ++ [sleepMicros]) k' (by omega) (by omega)
        (fun j hj1 hj2 => hstale j (by omega) (by omega))
        (by have : t + 1 + k' = t + (k' + 1) := by omega
            rw [this]; exact hstop)
      rw [this, List.append_assoc]
      rfl

/-- Failure case of the retry loop: staleness never clears, one sleep per
attempt until `trycount` reaches 10. -/
theorem acquireLoop_fail (stale : Nat → Bool) :
    ∀ (fuel t : Nat) (sleeps : List Nat), t + fuel = 10 → 0 < fuel →
      (∀ j, t ≤ j → j < 10 → stale j = true) →
      acquireLoop stale fuel t sleeps
        = (false, sleeps ++ List.replicate fuel sleepMicros) := by
  intro fuel
  induction fuel with
  | zero => intro t sleeps ht hf; omega
  | succ f ih =>
    intro t sleeps ht hf hstale
    rw [acquireLoop, if_pos (hstale t le_rfl (by omega))]
    cases f with
    | zero =>
      rw [if_pos (by omega)]
      rfl
    | succ f' =>
      rw [if_neg (by omega)]
      have := ih (t + 1) (sleeps ++ [sleepMicros]) (by omega) (by omega)
        (fun j hj1 hj2 => hstale j (by omega) hj2)
      rw [this, List.append_assoc]
      rfl

/-- Claim C6 amended: on an existing entry, `SharedQueueAcquire` retries when
the producer is still bound *and* this caller's node's slot is `DONE` (or the
node has no slot) — not when a slot is "not DONE"; each retry sleeps
`pg_usleep(1000000L)` = 1 000 000 microseconds (one second, not ≈1 ms); if
the staleness clears at attempt `k < 10` the call succeeds after exactly `k`
such sleeps, and if it never clears the call errors out after exactly 10
sleeps. -/
theorem SharedQueueAcquire_retry_spec (stale : Nat → Bool) :
    (∀ (pid parentId : Int) (consumers : List ConsState) (c : ConsState),
      consumers.find? (fun c => c.cs_node == parentId) = some c →
      (squeueIsStale pid consumers parentId = true ↔
        pid ≠ 0 ∧ c.cs_status = CONSUMER_DONE)) ∧
    (∀ (pid parentId : Int) (consumers : List ConsState),
      consumers.find? (fun c => c.cs_node == parentId) = none →
      (squeueIsStale pid consumers parentId = true ↔ pid ≠ 0)) ∧
    sleepMicros = 1000000 ∧
    (∀ k, k < 10 → (∀ j, j < k → stale j = true) → stale k = false →
      SharedQueueAcquireRetry stale
        = (true, List.replicate k sleepMicros)) ∧
    ((∀ j, j < 10 → stale j = true) →
      SharedQueueAcquireRetry stale
        = (false, List.replicate 10 sleepMicros)) := by
  refine ⟨?_, ?_, rfl, ?_, ?_⟩
  · intro pid parentId consumers c hfind
    rw [squeueIsStale, hfind]
    simp [CONSUMER_DONE]
  · intro pid parentId consumers hfind
    rw [squeueIsStale, hfind]
    simp
  · intro k hk hstale hstop
    have := acquireLoop_success stale 10 0 [] k (by omega) (by omega)
      (fun j hj1 hj2 => hstale j (by omega))
      (by rw [Nat.zero_add]; exact hstop)
    rw [SharedQueueAcquireRetry, this, List.nil_append]
  · intro hstale
    have := acquireLoop_fail stale 10 0 [] (by omega) (by omega)
      (fun j hj1 hj2 => hstale j hj2)
    rw [SharedQueueAcquireRetry, this, List.nil_append]

/-- Witness for `SharedQueueAcquire_retry_spec`: an oracle stale on attempts
0, 1, 2 and clear at attempt 3 — the call succeeds after exactly three
1 000 000-microsecond sleeps. -/
theorem SharedQueueAcquire_retry_spec_witness :
    (3 : Nat) < 10 ∧
    SharedQueueAcquireRetry (fun n => decide (n < 3))
      = (true, List.replicate 3 sleepMicros) :=
  ⟨by decide,
    (SharedQueueAcquire_retry_spec (fun n => decide (n < 3))).2.2.2.1 3
      (by decide) (fun j hj => decide_eq_true hj) (by decide)⟩

/-- Claim C6 counterexample: (a) the per-retry sleep is 1 000 000
microseconds — a full second, three orders of magnitude off "approximately
1 millisecond"; (b) the retry condition is inverted: with the producer bound
(`sq_pid = 5`) and this caller's node's only slot `ACTIVE` (hence "not
DONE"), the claim demands a retry but the code proceeds without one
(`squeueIsStale` is `false`), while with that slot `DONE` the code does
retry; (c) with staleness never clearing the loop performs all 10
one-second sleeps and then fails. -/
theorem SharedQueueAcquire_retry_counterexample :
    sleepMicros = 1000000 ∧ ¬ sleepMicros ≤ 2000 ∧
    squeueIsStale 5
      [ConsState.mk 0 3 0 CONSUMER_ACTIVE (List.replicate 8 0) 8 0 0] 3
      = false ∧
    squeueIsStale 5
      [ConsState.mk 0 3 0 CONSUMER_DONE (List.replicate 8 0) 8 0 0] 3
      = true ∧
    SharedQueueAcquireRetry (fun _ => true)
      = (false, List.replicate 10 1000000) := by
  decide

/-- Claim C7: `SharedQueueRead` returns `true` exactly when it observes an
empty ring (`cs_ntuples <= 0`) with slot status `CONSUMER_EOF`; in that case
it sets the status to `CONSUMER_DONE`, leaving every other slot field
untouched, and performs — in program order — the latch disown, the consumer
lock release, the destination-slot clear, the producer latch set, and the
producer lock release.  Every other branch of the body returns `false`,
errors out, or suspends. -/
theorem SharedQueueRead_true_iff (c : ConsState) (w : Bool) :
    ((SharedQueueReadModel c w).1 = ReadResult.retTrue ↔
      c.cs_ntuples ≤ 0 ∧ c.cs_status = CONSUMER_EOF) ∧
    (c.cs_ntuples ≤ 0 → c.cs_status = CONSUMER_EOF →
      (SharedQueueReadModel c w).2.1
          = { c with cs_status := CONSUMER_DONE } ∧
      (SharedQueueReadModel c w).2.2
          = [SideEffect.disownLatch, SideEffect.releaseConsumerLock,
             SideEffect.clearSlot, SideEffect.setProducerLatch,
             SideEffect.releaseProducerLock]) := by
  refine ⟨⟨?_, ?_⟩, ?_⟩
  · intro hres
    rw [SharedQueueReadModel] at hres
    split at hres
    · split at hres
      · exact ⟨‹c.cs_ntuples ≤ 0›, ‹c.cs_status = CONSUMER_EOF›⟩
      · split at hres
        · exact ReadResult.noConfusion hres
        · split at hres
          · exact ReadResult.noConfusion hres
          · exact ReadResult.noConfusion hres
    · dsimp only at hres
      split at hres
      · exact ReadResult.noConfusion hres
      · exact ReadResult.noConfusion hres
  · rintro ⟨hnt, heof⟩
    rw [SharedQueueReadModel, if_pos hnt, if_pos heof]
  · intro hnt heof
    rw [SharedQueueReadModel, if_pos hnt, if_pos heof]
    exact ⟨rfl, rfl⟩

/-- Witness for `SharedQueueRead_true_iff`: a drained `EOF` slot — the read
returns `true`, flips the status to `DONE` and nothing else, and emits the
five side effects in order. -/
theorem SharedQueueRead_true_iff_witness :
    (ConsState.mk 0 (-1) 0 CONSUMER_EOF (List.replicate 8 0) 8 0 0).cs_ntuples
      ≤ 0 ∧
    ((SharedQueueReadModel
        (ConsState.mk 0 (-1) 0 CONSUMER_EOF (List.replicate 8 0) 8 0 0)
        false).2.1
      = { ConsState.mk 0 (-1) 0 CONSUMER_EOF (List.replicate 8 0) 8 0 0 with
          cs_status := CONSUMER_DONE } ∧
     (SharedQueueReadModel
        (ConsState.mk 0 (-1) 0 CONSUMER_EOF (List.replicate 8 0) 8 0 0)
        false).2.2
      = [SideEffect.disownLatch, SideEffect.releaseConsumerLock,
         SideEffect.clearSlot, SideEffect.setProducerLatch,
         SideEffect.releaseProducerLock]) :=
  ⟨by decide,
    (SharedQueueRead_true_iff
      (ConsState.mk 0 (-1) 0 CONSUMER_EOF (List.replicate 8 0) 8 0 0)
      false).2 (by decide) rfl⟩

/-- Ring occupancy as `SharedQueueCanPause` computes it:
`cs_qwritepos > cs_qreadpos ? w - r : qlength + w - r`. -/
def occupancy (c : ConsState) : Nat :=
  if c.cs_qwritepos > c.cs_qreadpos then c.cs_qwritepos - c.cs_qreadpos
  else c.cs_qlength + c.cs_qwritepos - c.cs_qreadpos

/-- The accumulation loop of `SharedQueueCanPause`
(`for (i = 0; result && i < nconsumers; i++)`): scan the slots while
`result` stays `true`; an `ACTIVE` slot sets `result = ntuples > 0` and adds
its occupancy to `usedspace` and one to `ncons`; a non-`ACTIVE` slot is
skipped.  Returns `(result, usedspace, ncons)`. -/
def canPauseLoop : List ConsState → Bool × Nat × Nat
  | [] => (true, 0, 0)
  | c :: cs =>
    if c.cs_status = CONSUMER_ACTIVE then
      if c.cs_ntuples > 0 then
        let r := canPauseLoop cs
        (r.1, occupancy c + r.2.1, 1 + r.2.2)
      else (false, occupancy c, 1)
    else canPauseLoop cs

/-- Ring length of consumer slot 0 (`sq_consumers[0].cs_qlength`). -/
def qlen0 : List ConsState → Nat
  | [] => 0
  | c :: _ => c.cs_qlength

/-- The `SharedQueueCanPause` body: run the loop, return `false` when no
consumer was counted, else demand `result` and
`usedspace / ncons > cs_qlength / 2` (C integer division). -/
def SharedQueueCanPause (consumers : List ConsState) : Bool :=
  let r := canPauseLoop consumers
  if r.2.2 = 0 then false
  else if r.1 then
    decide (r.2.1 / r.2.2 > qlen0 consumers / 2)
  else false

/-- The declarative reading of the claim: every `ACTIVE` slot holds a tuple,
some slot is `ACTIVE`, and the average occupancy over the `ACTIVE` slots
exceeds half the ring length (both sides under C integer division, as the
source computes them). -/
def CanPauseSpec (consumers : List ConsState) : Prop :=
  (∀ c ∈ consumers, c.cs_status = CONSUMER_ACTIVE → 0 < c.cs_ntuples) ∧
  (∃ c ∈ consumers, c.cs_status = CONSUMER_ACTIVE) ∧
  ((consumers.filter
      (fun c => c.cs_status == CONSUMER_ACTIVE)).map occupancy).sum
      / (consumers.filter
          (fun c => c.cs_status == CONSUMER_ACTIVE)).length
    > qlen0 consumers / 2

/-- Loop invariant of `canPauseLoop`: the flag is `true` iff every `ACTIVE`
slot has tuples (the early exit only ever skips slots after a failure);
under a `true` flag the accumulators are the `ACTIVE`-filtered occupancy sum
and count; and the count is zero iff no slot is `ACTIVE` (the first `ACTIVE`
slot is always counted, failed or not). -/
theorem canPauseLoop_spec (cs : List ConsState) :
    ((canPauseLoop cs).1 = true ↔
      ∀ c ∈ cs, c.cs_status = CONSUMER_ACTIVE → 0 < c.cs_ntuples) ∧
    ((canPauseLoop cs).1 = true →
      (canPauseLoop cs).2.1
          = ((cs.filter (fun c => c.cs_status == CONSUMER_ACTIVE)).map
              occupancy).sum ∧
      (canPauseLoop cs).2.2
          = (cs.filter (fun c => c.cs_status == CONSUMER_ACTIVE)).length) ∧
    ((canPauseLoop cs).2.2 = 0 ↔
      ∀ c ∈ cs, c.cs_status ≠ CONSUMER_ACTIVE) := by
  induction cs with
  | nil =>
    refine ⟨by simp [canPauseLoop], fun _ => ⟨rfl, rfl⟩,
      by simp [canPauseLoop]⟩
  | cons c cs ih =>
    obtain ⟨ihflag, ihsum, ihz⟩ := ih
    by_cases hact : c.cs_status = CONSUMER_ACTIVE
    · by_cases hnt : c.cs_ntuples > 0
      · rw [canPauseLoop, if_pos hact, if_pos hnt]
        refine ⟨?_, ?_, ?_⟩
        · constructor
          · intro hflag
            intro d hd hdact
            rcases List.mem_cons.mp hd with rfl | hdcs
            · exact hnt
            · exact ihflag.mp hflag d hdcs hdact
          · intro hall
            exact ihflag.mpr (fun d hd hdact => hall d (List.mem_cons_of_mem c hd) hdact)
        · intro hflag
          obtain ⟨hs, hn⟩ := ihsum hflag
          rw [List.filter_cons, if_pos (by simpa using hact)]
          constructor
          · simp only [List.map_cons, List.sum_cons]
            rw [hs]
          · simp only [List.length_cons]
            omega
        · constructor
          · intro hcontra
            exact absurd hcontra (by simp)
          · intro hall
            exact absurd hact (hall c (by simp))
      · rw [canPauseLoop, if_pos hact, if_neg hnt]
        refine ⟨?_, ?_, ?_⟩
        · constructor
          · intro hcontra; exact absurd hcontra (by simp)
          · intro hall
            exact absurd (hall c (by simp) hact) hnt
        · intro hcontra; exact absurd hcontra (by simp)
        · constructor
          · intro hcontra; exact absurd hcontra (by simp)
          · intro hall
            exact absurd hact (hall c (by simp))
    · rw [canPauseLoop, if_neg hact]
      refine ⟨?_, ?_, ?_⟩
      · rw [ihflag]
        constructor
        · intro hall d hd hdact
          rcases List.mem_cons.mp hd with rfl | hdcs
          · exact absurd hdact hact
          · exact hall d hdcs hdact
        · intro hall d hd hdact
          exact hall d (List.mem_cons_of_mem c hd) hdact
      · intro hflag
        obtain ⟨hs, hn⟩ := ihsum hflag
        rw [List.filter_cons, if_neg (by simpa using hact)]
        exact ⟨hs, hn⟩
      · rw [ihz]
        constructor
        · intro hall d hd
          rcases List.mem_cons.mp hd with rfl | hdcs
          · exact hact
          · exact hall d hdcs
        · intro hall d hd
          exact hall d (List.mem_cons_of_mem c hd)

/-- Claim C8: `SharedQueueCanPause` returns `true` iff every `ACTIVE`
consumer slot holds at least one tuple, at least one slot is `ACTIVE`, and
the average ring occupancy over the `ACTIVE` slots exceeds half the ring
length — the source's `usedspace / ncons > cs_qlength / 2` under C integer
division. -/
theorem SharedQueueCanPause_iff (consumers : List ConsState) :
    SharedQueueCanPause consumers = true ↔ CanPauseSpec consumers := by
  obtain ⟨hflag, hsum, hz⟩ := canPauseLoop_spec consumers
  rw [SharedQueueCanPause]
  constructor
  · intro hres
    by_cases h0 : (canPauseLoop consumers).2.2 = 0
    · rw [if_pos h0] at hres
      exact Bool.noConfusion hres
    · rw [if_neg h0] at hres
      by_cases hf : (canPauseLoop consumers).1 = true
      · rw [if_pos hf] at hres
        have havg := of_decide_eq_true hres
        obtain ⟨hs, hn⟩ := hsum hf
        refine ⟨hflag.mp hf, ?_, ?_⟩
        · by_contra hno
          push_neg at hno
          exact h0 (hz.mpr hno)
        · rw [← hs, ← hn]
          exact havg
      · rw [if_neg hf] at hres
        exact Bool.noConfusion hres
  · rintro ⟨hall, ⟨d, hd, hdact⟩, havg⟩
    have hf : (canPauseLoop consumers).1 = true := hflag.mpr hall
    obtain ⟨hs, hn⟩ := hsum hf
    have h0 : ¬ (canPauseLoop consumers).2.2 = 0 := by
      rw [hz]
      intro hnone
      exact hnone d hd hdact
    rw [if_neg h0, if_pos hf]
    apply decide_eq_true
    rw [hs, hn]
    exact havg

/-- Witness for `ntuples_zero_positions`: one 2-byte write into an 8-byte
ring — afterwards both directions of the amended equivalence hold. -/
theorem ntuples_zero_positions_witness :
    (5 : Nat) ≤ 8 ∧
    (((runOps ⟨initialSlot 8, none⟩ [] [SQOp.write [1, 2]]).1.cons.cs_ntuples
        = 0 →
      (runOps ⟨initialSlot 8, none⟩ [] [SQOp.write [1, 2]]).1.cons.cs_qreadpos
        = (runOps ⟨initialSlot 8, none⟩ []
            [SQOp.write [1, 2]]).1.cons.cs_qwritepos) ∧
     ((runOps ⟨initialSlot 8, none⟩ [] [SQOp.write [1, 2]]).1.cons.cs_qreadpos
        = (runOps ⟨initialSlot 8, none⟩ []
            [SQOp.write [1, 2]]).1.cons.cs_qwritepos →
      (runOps ⟨initialSlot 8, none⟩ [] [SQOp.write [1, 2]]).1.cons.cs_ntuples
        = 0 ∨
      QUEUE_FREE_SPACE
        (runOps ⟨initialSlot 8, none⟩ [] [SQOp.write [1, 2]]).1.cons = 0)) :=
  ⟨by decide,
    ntuples_zero_positions 8 [SQOp.write [1, 2]] (by decide)
      (fun t ht => by
        have h := List.mem_singleton.mp ht
        injection h with h1
        subst h1
        decide)⟩

/-- Registry-level view of one shared queue entry: its reference count
(`sq_refcnt`) and the index of its associated Sync Block (`sq_sync`,
`none` = `NULL`). -/
structure SQueueEnt where
  refcnt : Int
  sync : Option Nat
  deriving Repr, DecidableEq

/-- The Registry: the `SharedQueues` hash table as an association list keyed
by queue name, and the Sync Block pool's back-pointers (`sqs->queue`), by
sync index (`none` = `NULL`). -/
structure Registry where
  entries : List (String × SQueueEnt)
  syncs : List (Option String)
  deriving Repr, DecidableEq

/-- Registry-lock-scoped events of the release tails. -/
inductive RegEvent where
  | lockRegistry
  | removeEntry (name : String)
  | unlockRegistry
  deriving Repr, DecidableEq

/-- The `hash_search(SharedQueues, name, HASH_FIND, ...)` lookup. -/
def lookupEntry (entries : List (String × SQueueEnt)) (name : String) :
    Option SQueueEnt :=
  (entries.find? (fun p => p.1 == name)).map Prod.snd

/-- The common refcount tail of `SharedQueueUnBind` and
`SharedQueueRelease`, run under `SQueuesLock`: decrement `sq_refcnt`; when
it reaches zero, clear the Sync Block association in both directions
(`sq->sq_sync = NULL; sqsync->queue = NULL`) and remove the entry from the
hash table (`HASH_REMOVE`).  A queue that does not exist (Release's
not-found path) leaves the Registry untouched. -/
def refcntRelease (reg : Registry) (name : String) :
    Registry × List RegEvent :=
  match lookupEntry reg.entries name with
  | none => (reg, [RegEvent.lockRegistry, RegEvent.unlockRegistry])
  | some e =>
    if e.refcnt - 1 = 0 then
      ({ entries := reg.entries.filter (fun p => !(p.1 == name)),
         syncs := match e.sync with
                  | some i => reg.syncs.set i none
                  | none => reg.syncs },
       [RegEvent.lockRegistry, RegEvent.removeEntry name,
        RegEvent.unlockRegistry])
    else
      ({ entries := reg.entries.map
           (fun p => if p.1 == name
                     then (p.1, { p.2 with refcnt := p.2.refcnt - 1 })
                     else p),
         syncs := reg.syncs },
       [RegEvent.lockRegistry, RegEvent.unlockRegistry])

/-- `k` successive release tails on the same queue name. -/
def releaseTimes (reg : Registry) (name : String) : Nat → Registry
  | 0 => reg
  | k + 1 => releaseTimes (refcntRelease reg name).1 name k

/-- After filtering a name out of the table, lookup of that name fails. -/
theorem lookupEntry_filter_ne (entries : List (String × SQueueEnt))
    (name : String) :
    lookupEntry (entries.filter (fun p => !(p.1 == name))) name = none := by
  rw [lookupEntry]
  have hfind : (entries.filter (fun p => !(p.1 == name))).find?
      (fun p => p.1 == name) = none := by
    rw [List.find?_eq_none]
    intro p hp
    have hmem := (List.mem_filter.mp hp).2
    simp only [Bool.not_eq_true'] at hmem
    simp [hmem]
  rw [hfind]
  rfl

/-- Lookup through a key-preserving pointwise update. -/
theorem lookupEntry_map_update (entries : List (String × SQueueEnt))
    (name : String) (g : SQueueEnt → SQueueEnt) :
    lookupEntry
      (entries.map (fun p => if p.1 == name then (p.1, g p.2) else p)) name
      = (lookupEntry entries name).map g := by
  induction entries with
  | nil => rfl
  | cons p ps ih =>
    rw [List.map_cons]
    by_cases h : (p.1 == name) = true
    · rw [if_pos h]
      have hpair : ((p.1, g p.2).1 == name) = true := h
      simp only [lookupEntry, List.find?_cons, h, hpair]
      rfl
    · rw [if_neg h]
      have h' : (p.1 == name) = false := by simpa using h
      have hpair : ((p.1, g p.2).1 == name) = false := h'
      simp only [lookupEntry, List.find?_cons, h', hpair]
      exact ih

/-- The release tail when the count is about to reach zero. -/
theorem refcntRelease_of_remove (reg : Registry) (name : String)
    (e : SQueueEnt) (h : lookupEntry reg.entries name = some e)
    (h1 : e.refcnt = 1) :
    refcntRelease reg name =
      ({ entries := reg.entries.filter (fun p => !(p.1 == name)),
         syncs := match e.sync with
                  | some i => reg.syncs.set i none
                  | none => reg.syncs },
       [RegEvent.lockRegistry, RegEvent.removeEntry name,
        RegEvent.unlockRegistry]) := by
  simp only [refcntRelease, h]
  rw [if_pos (show e.refcnt - 1 = 0 by omega)]

/-- The release tail when the count stays positive. -/
theorem refcntRelease_of_dec (reg : Registry) (name : String)
    (e : SQueueEnt) (h : lookupEntry reg.entries name = some e)
    (h1 : e.refcnt ≠ 1) :
    refcntRelease reg name =
      ({ entries := reg.entries.map
           (fun p => if p.1 == name
                     then (p.1, { p.2 with refcnt := p.2.refcnt - 1 })
                     else p),
         syncs := reg.syncs },
       [RegEvent.lockRegistry, RegEvent.unlockRegistry]) := by
  simp only [refcntRelease, h]
  rw [if_neg (show ¬ e.refcnt - 1 = 0 by omega)]

/-- Claim C9: when the release tail of `SharedQueueUnBind` /
`SharedQueueRelease` takes `sq_refcnt` from 1 to 0, the entry disappears
from the Registry, its Sync Block back-pointer is cleared (the forward
pointer goes with the removed entry), and the remove event sits strictly
between the Registry lock and unlock; a release from a higher count only
decrements, touching no sync association; and from `sq_refcnt = k + 1`,
`k + 1` successive releases leave the name absent from the Registry. -/
theorem refcnt_zero_removal :
    (∀ (reg : Registry) (name : String) (e : SQueueEnt),
      lookupEntry reg.entries name = some e → e.refcnt = 1 →
      lookupEntry (refcntRelease reg name).1.entries name = none ∧
      (∀ i, e.sync = some i →
        (refcntRelease reg name).1.syncs.getD i none = none) ∧
      (refcntRelease reg name).2
        = [RegEvent.lockRegistry, RegEvent.removeEntry name,
           RegEvent.unlockRegistry]) ∧
    (∀ (reg : Registry) (name : String) (e : SQueueEnt),
      lookupEntry reg.entries name = some e → e.refcnt ≠ 1 →
      lookupEntry (refcntRelease reg name).1.entries name
        = some { e with refcnt := e.refcnt - 1 } ∧
      (refcntRelease reg name).1.syncs = reg.syncs) ∧
    (∀ (k : Nat) (reg : Registry) (name : String) (e : SQueueEnt),
      lookupEntry reg.entries name = some e → e.refcnt = (k : Int) + 1 →
      lookupEntry (releaseTimes reg name (k + 1)).entries name = none) := by
  have hset : ∀ (l : List (Option String)) (i : Nat),
      (l.set i none).getD i none = none := by
    intro l i
    by_cases hi : i < l.length <;>
      simp [List.getD_eq_getElem?_getD, List.getElem?_set, hi]
  refine ⟨?_, ?_, ?_⟩
  · intro reg name e h h1
    rw [refcntRelease_of_remove reg name e h h1]
    refine ⟨lookupEntry_filter_ne reg.entries name, ?_, rfl⟩
    intro i hsync
    rw [hsync]
    exact hset reg.syncs i
  · intro reg name e h h1
    rw [refcntRelease_of_dec reg name e h h1]
    constructor
    · rw [lookupEntry_map_update reg.entries name
        (fun d => { d with refcnt := d.refcnt - 1 }), h]
      rfl
    · rfl
  · intro k
    induction k with
    | zero =>
      intro reg name e h hr
      simp only [releaseTimes]
      rw [refcntRelease_of_remove reg name e h (by omega)]
      exact lookupEntry_filter_ne reg.entries name
    | succ k ih =>
      intro reg name e h hr
      have hne : e.refcnt ≠ 1 := by omega
      simp only [releaseTimes]
      apply ih (refcntRelease reg name).1 name
        { e with refcnt := e.refcnt - 1 }
      · rw [refcntRelease_of_dec reg name e h hne]
        rw [lookupEntry_map_update reg.entries name
          (fun d => { d with refcnt := d.refcnt - 1 }), h]
        rfl
      · show e.refcnt - 1 = (k : Int) + 1
        push_cast at hr ⊢
        omega

/-- The queue state `SharedQueueDisconnectConsumer` touches: the producer pid
(`sq_pid`) and the consumer slots. -/
structure SQueueState where
  sq_pid : Int
  consumers : List ConsState
  deriving Repr, DecidableEq

/-- Per-slot action of the disconnect loop: a slot of the caller's parent
node is marked `CONSUMER_DONE` with `cs_ntuples`, `cs_qreadpos` and
`cs_qwritepos` zeroed; every other slot is untouched. -/
def disconnectSlot (parentId : Int) (c : ConsState) : ConsState :=
  if c.cs_node = parentId then
    { c with cs_status := CONSUMER_DONE, cs_ntuples := 0,
             cs_qreadpos := 0, cs_qwritepos := 0 }
  else c

/-- `SharedQueueDisconnectConsumer(sqname)` on the registry: look the queue
up by name; when it is absent, or present with `sq_pid == 0` (producer not
yet bound), release the lock and return with nothing done; otherwise run the
disconnect loop over the queue's consumer slots. -/
def SharedQueueDisconnectConsumer
    (reg : List (String × SQueueState)) (sqname : String) (parentId : Int) :
    List (String × SQueueState) :=
  match (reg.find? (fun p => p.1 == sqname)).map Prod.snd with
  | none => reg
  | some sq =>
    if sq.sq_pid = 0 then reg
    else reg.map (fun p =>
      if p.1 == sqname
      then (p.1, { p.2 with
                   consumers := p.2.consumers.map (disconnectSlot parentId) })
      else p)

/-- Claim C10: `SharedQueueDisconnectConsumer` on a queue whose entry exists
but whose producer has not bound (`sq_pid == 0`) changes nothing at all —
the registry, hence every slot status, ring position, tuple count and every
other field, is returned exactly as it was, identical to the queue-not-found
case; only when the producer is bound does it rewrite the named queue's
slots with the disconnect action. -/
theorem SharedQueueDisconnectConsumer_noop
    (reg : List (String × SQueueState)) (sqname : String) (parentId : Int) :
    (reg.find? (fun p => p.1 == sqname) = none →
      SharedQueueDisconnectConsumer reg sqname parentId = reg) ∧
    (∀ sq, (reg.find? (fun p => p.1 == sqname)).map Prod.snd = some sq →
      sq.sq_pid = 0 →
      SharedQueueDisconnectConsumer reg sqname parentId = reg) ∧
    (∀ sq, (reg.find? (fun p => p.1 == sqname)).map Prod.snd = some sq →
      sq.sq_pid ≠ 0 →
      SharedQueueDisconnectConsumer reg sqname parentId
        = reg.map (fun p =>
            if p.1 == sqname
            then (p.1, { p.2 with
                         consumers :=
                           p.2.consumers.map (disconnectSlot parentId) })
            else p)) := by
  refine ⟨?_, ?_, ?_⟩
  · intro h
    simp only [SharedQueueDisconnectConsumer, h, Option.map_none']
  · intro sq h h0
    simp only [SharedQueueDisconnectConsumer, h]
    rw [if_pos h0]
  · intro sq h h0
    simp only [SharedQueueDisconnectConsumer, h]
    rw [if_neg h0]

/-- Witness for `SharedQueueDisconnectConsumer_noop`: a one-queue registry
whose producer is unbound — the disconnect returns it unchanged. -/
theorem SharedQueueDisconnectConsumer_noop_witness :
    SharedQueueDisconnectConsumer
      [("q", SQueueState.mk 0 [initialSlot 8])] "q" 3
      = [("q", SQueueState.mk 0 [initialSlot 8])] :=
  (SharedQueueDisconnectConsumer_noop
      [("q", SQueueState.mk 0 [initialSlot 8])] "q" 3).2.1
    (SQueueState.mk 0 [initialSlot 8]) (by decide) rfl
